import Mathlib

/-!
# A verification development for `LRU.h`

The header defines three class templates in namespace `lru`:

* `Entry<T>`: a key (`std::wstring`) together with a value;
* `List<T>`: a `std::list<Entry<T>>` with a running element counter `capacity_`;
* `LRU<T>`: the cache, made of a `std::map` from keys to list iterators (the key index),
  a `List<T>` (the recency list), the bound `fixedCapacity_` and an optional callback.

## Embedding

* A `std::list` is a sequence of nodes. Every node carries an identity (a natural number, standing
  for its address); an iterator is either the identity of a node or the past-the-end position.
  Inserting allocates an identity that was never used before, so an iterator to an erased node
  never becomes valid again.
* A `std::map` is an association list with pairwise distinct keys; `find` yields the first pair
  with the key (or nothing, for `end()`).
* Undefined behaviour (dereferencing or erasing through an iterator that refers to no live node,
  dereferencing `end()`) is the result `none`; every member function whose body can reach such an
  operation returns an `Option`.
* `unsigned int` arithmetic is arithmetic on `Nat` modulo `2 ^ 32`.
* The callback is a log: each invocation appends the entry passed to it, together with the key
  index and the recency list as they are at the moment of the call.
* The pointer `Get` returns is modelled twice: `Get` reports the value it points to, `GetPtr` the
  node it points into, and `store` is an assignment through such a pointer.
-/

namespace lru

/-- The number of values of an `unsigned int`. -/
def UINT_MOD : Nat := 2 ^ 32

/-- The class `Entry<T>` (LRU.h:12-18). -/
structure Entry (T : Type) where
  key : String
  value : T
  deriving DecidableEq

/-- The type `Iter<T>` (LRU.h:20-21): the identity of a list node, or the past-the-end
position `lst_.end()`. -/
inductive Iter where
  | node (id : Nat)
  | pastEnd
  deriving DecidableEq

/-! ## `std::list<Entry<T>>` -/

/-- A `std::list<Entry<T>>`: the nodes from front to back, each with its identity, and the
identity the allocator hands out next. -/
structure StdList (T : Type) where
  nodes : List (Nat × Entry T)
  nextId : Nat
  deriving DecidableEq

namespace StdList

variable {T : Type}

/-- The list of a default-constructed `std::list`. -/
def empty : StdList T := { nodes := [], nextId := 0 }

/-- The member `size()`. -/
def size (l : StdList T) : Nat := l.nodes.length

/-- The node an identity refers to. -/
def lookup (i : Nat) : List (Nat × Entry T) → Option (Entry T)
  | [] => none
  | n :: ns => if n.1 = i then some n.2 else lookup i ns

/-- The nodes without the first one that has the given identity. -/
def remove (i : Nat) : List (Nat × Entry T) → List (Nat × Entry T)
  | [] => []
  | n :: ns => if n.1 = i then ns else n :: remove i ns

/-- The expression `*it`: undefined for `end()` and for an iterator to no live node. -/
def deref (l : StdList T) : Iter → Option (Entry T)
  | .pastEnd => none
  | .node i => lookup i l.nodes

/-- The member `erase(it)`: undefined for `end()` and for an iterator to no live node. -/
def erase (l : StdList T) (it : Iter) : Option (StdList T) :=
  match l.deref it, it with
  | some _, .node i => some { l with nodes := remove i l.nodes }
  | _, _ => none

/-- The call `insert(begin(), v)`: a new node in front, and the iterator to it. -/
def insertBegin (l : StdList T) (v : Entry T) : Iter × StdList T :=
  (.node l.nextId, { nodes := (l.nextId, v) :: l.nodes, nextId := l.nextId + 1 })

/-- The expression `--end()` on a list that has a node: the iterator to the last node. -/
def beforeEnd (l : StdList T) : Iter :=
  match l.nodes.getLast? with
  | some n => .node n.1
  | none => .pastEnd

end StdList

/-! ## `std::map<const std::wstring, Iter<T>>` -/

/-- A `std::map` from keys to list iterators. -/
abbrev StdMap := List (String × Iter)

namespace StdMap

/-- The member `find(key)`: the pair the resulting map iterator points to, `none` for `end()`. -/
def find : StdMap → String → Option (String × Iter)
  | [], _ => none
  | p :: m, key => if p.1 = key then some p else find m key

/-- The statement `m[key] = it`. -/
def assign : StdMap → String → Iter → StdMap
  | [], key, it => [(key, it)]
  | p :: m, key, it => if p.1 = key then (key, it) :: m else p :: assign m key it

/-- The member `erase(key)`. -/
def erase : StdMap → String → StdMap
  | [], _ => []
  | p :: m, key => if p.1 = key then erase m key else p :: erase m key

end StdMap

/-! ## The class `List<T>` -/

/-- The class `List<T>` (LRU.h:26-85): the counter `capacity_` and the list `lst_`. -/
structure ListT (T : Type) where
  capacity_ : Nat
  lst_ : StdList T
  deriving DecidableEq

namespace ListT

variable {T : Type}

/-- The constructor `List()` (LRU.h:30-32, 83-84). -/
def new : ListT T := { capacity_ := 0, lst_ := StdList.empty }

/-- The member `Capacity` (LRU.h:39-42). -/
def Capacity (l : ListT T) : Nat := l.capacity_

/-- The member `PushFront` (LRU.h:44-48). -/
def PushFront (l : ListT T) (entry : Entry T) : Iter × ListT T :=
  let r := l.lst_.insertBegin entry
  (r.1, { capacity_ := (l.capacity_ + 1) % UINT_MOD, lst_ := r.2 })

/-- The member `MoveToFront` (LRU.h:50-55). -/
def MoveToFront (l : ListT T) (it : Iter) : Option (Iter × ListT T) :=
  match l.lst_.deref it with
  | none => none
  | some v =>
    match l.lst_.erase it with
    | none => none
    | some lst1 =>
      let r := lst1.insertBegin v
      some (r.1, { l with lst_ := r.2 })

/-- The member `Remove` (LRU.h:57-67). -/
def Remove (l : ListT T) (it : Iter) : Option (Bool × ListT T) :=
  if l.lst_.size > 0 ∧ l.capacity_ > 0 then
    match l.lst_.erase it with
    | none => none
    | some lst1 =>
      some (true, { capacity_ := (l.capacity_ + UINT_MOD - 1) % UINT_MOD, lst_ := lst1 })
  else
    some (false, l)

/-- The member `Back` (LRU.h:69-77). -/
def Back (l : ListT T) : Iter :=
  if l.lst_.size > 0 ∧ l.capacity_ > 0 then l.lst_.beforeEnd else .pastEnd

/-- The member `IsEnd` (LRU.h:78-81): true when the iterator is NOT `end()`. -/
def IsEnd (_l : ListT T) (it : Iter) : Bool := it != .pastEnd

end ListT

/-! ## The class `LRU<T>` -/

/-- One invocation of the callback: its argument, and the members of the cache at that moment. -/
structure Call (T : Type) where
  arg : Entry T
  lruMap_ : StdMap
  lruList_ : ListT T
  deriving DecidableEq

/-- The class `LRU<T>` (LRU.h:87-187). `evictCallback_` tells whether the callback is set
(is not `nullptr`); `calls` is the log of its invocations, oldest first. -/
structure LRU (T : Type) where
  fixedCapacity_ : Nat
  lruMap_ : StdMap
  lruList_ : ListT T
  evictCallback_ : Bool
  calls : List (Call T)
  deriving DecidableEq

namespace LRU

variable {T : Type}

/-- The constructor (LRU.h:91-98, 183-186): `fixed` is an `unsigned int`; `callback` tells
whether a callback other than `nullptr` is passed. -/
def new (fixed : Nat) (callback : Bool) : LRU T :=
  { fixedCapacity_ := if 100 ≠ fixed then fixed else 100
    lruMap_ := []
    lruList_ := ListT.new
    evictCallback_ := if callback then callback else false
    calls := [] }

/-- The member `_Delete` (LRU.h:167-180). -/
def _Delete (c : LRU T) (it : Iter) : Option (LRU T) :=
  if !c.lruList_.IsEnd it then some c
  else
    match c.lruList_.lst_.deref it with
    | none => none
    | some entry =>
      match c.lruList_.Remove it with
      | none => none
      | some (true, l1) =>
        let c1 := { c with lruList_ := l1 }
        -- lines 175-176, the callback is invoked before the key is erased from the index
        let c2 :=
          if c1.evictCallback_ then
            { c1 with
              calls :=
                c1.calls ++ [{ arg := entry, lruMap_ := c1.lruMap_, lruList_ := c1.lruList_ }] }
          else c1
        -- line 178
        some { c2 with lruMap_ := c2.lruMap_.erase entry.key }
      | some (false, l1) => some { c with lruList_ := l1 }

/-- The end of `Put` (LRU.h:127-132): the new entry is pushed and indexed. -/
def putNew (c : LRU T) (key : String) (value : T) : Bool × LRU T :=
  let entry : Entry T := { key := key, value := value }
  let r := c.lruList_.PushFront entry
  (true, { c with lruList_ := r.2, lruMap_ := c.lruMap_.assign key r.1 })

/-- The member `Put` (LRU.h:103-133). -/
def Put (c : LRU T) (key : String) (value : T) : Option (Bool × LRU T) :=
  if key.length = 0 then some (false, c)
  else
    match c.lruMap_.find key with
    | some p =>
      match c.lruList_.MoveToFront p.2 with
      | none => none
      | some (newIt, l1) =>
        some (false, { c with lruList_ := l1, lruMap_ := c.lruMap_.assign key newIt })
    | none =>
      if c.fixedCapacity_ ≤ c.lruList_.Capacity then
        let delIt := c.lruList_.Back
        if c.lruList_.IsEnd delIt then
          match c._Delete delIt with
          | none => none
          | some c1 => some (c1.putNew key value)
        else some (false, c)
      else some (c.putNew key value)

/-- The member `Get` (LRU.h:135-147). The result is the value the returned pointer points to,
`none` for `nullptr`. -/
def Get (c : LRU T) (key : String) : Option (Option T × LRU T) :=
  if key.length = 0 then some (none, c)
  else
    match c.lruMap_.find key with
    | none => some (none, c)
    | some p =>
      match c.lruList_.MoveToFront p.2 with
      | none => none
      | some (newIt, l1) =>
        match l1.lst_.deref newIt with
        | none => none
        | some e =>
          some (some e.value, { c with lruList_ := l1, lruMap_ := c.lruMap_.assign key newIt })

/-- The member `Del` (LRU.h:149-164). The map iterator `it` is dereferenced (line 158) before it
is compared with `end()` (line 159). -/
def Del (c : LRU T) (key : String) : Option (Bool × LRU T) :=
  if key.length = 0 then some (false, c)
  else if c.lruList_.Capacity ≤ 0 then some (false, c)
  else
    let it := c.lruMap_.find key
    -- line 158, `auto entry = (*it);`
    match it with
    | none => none
    | some p =>
      -- line 159, `if (it == lruMap_.end()) return false;`
      if it = none then some (false, c)
      else
        match c._Delete p.2 with
        | none => none
        | some c1 => some (true, c1)

end LRU

/-! ## Calls, runs and reachable states -/

/-- A call of one of the three public member functions of `LRU<T>`. -/
inductive Op (T : Type) where
  | Put (key : String) (value : T)
  | Get (key : String)
  | Del (key : String)
  deriving DecidableEq

/-- What a call returns: the `bool` of `Put` and `Del`, or the pointee of the pointer of `Get`. -/
inductive Ret (T : Type) where
  | bool (b : Bool)
  | ptr (v : Option T)
  deriving DecidableEq

namespace LRU

variable {T : Type}

/-- One call: the returned value and the cache afterwards, `none` when the call has undefined
behaviour. -/
def step (c : LRU T) : Op T → Option (Ret T × LRU T)
  | .Put key value =>
    match c.Put key value with
    | none => none
    | some r => some (.bool r.1, r.2)
  | .Get key =>
    match c.Get key with
    | none => none
    | some r => some (.ptr r.1, r.2)
  | .Del key =>
    match c.Del key with
    | none => none
    | some r => some (.bool r.1, r.2)

/-- A sequence of calls, one after the other: the cache after the last one, `none` when one of
the calls has undefined behaviour. -/
def run (c : LRU T) : List (Op T) → Option (LRU T)
  | [] => some c
  | op :: ops =>
    match c.step op with
    | none => none
    | some r => run r.2 ops

/-- The nodes of the recency list, front first. -/
def nodes (c : LRU T) : List (Nat × Entry T) := c.lruList_.lst_.nodes

/-- The entries held by the recency list, front (most recently used) first. -/
def entries (c : LRU T) : List (Entry T) := c.nodes.map Prod.snd

/-- The keys held by the recency list, front first. -/
def keys (c : LRU T) : List String := c.entries.map Entry.key

/-- The value the recency list holds for a key. -/
def valueOf (c : LRU T) (key : String) : Option T :=
  (c.entries.find? (fun e => e.key = key)).map Entry.value

/-- The entries passed to the callback so far, oldest first. -/
def evicted (c : LRU T) : List (Entry T) := c.calls.map Call.arg

/-- The cache after the node `i`, which holds `e`, was moved to the front (`MoveToFront`) and the
new iterator was stored under `key` (LRU.h:111-112 and 144-145). -/
def refreshed (c : LRU T) (key : String) (i : Nat) (e : Entry T) : LRU T :=
  { c with
    lruList_ :=
      { c.lruList_ with
        lst_ :=
          { nodes := (c.lruList_.lst_.nextId, e) :: StdList.remove i c.lruList_.lst_.nodes
            nextId := c.lruList_.lst_.nextId + 1 } }
    lruMap_ := c.lruMap_.assign key (.node c.lruList_.lst_.nextId) }

/-- The cache after `_Delete` took the node `i`, which holds `e`, out of the recency list,
passed `e` to the callback (when there is one) and erased the key of `e` from the index. -/
def deleted (c : LRU T) (i : Nat) (e : Entry T) : LRU T :=
  let l1 : ListT T :=
    { capacity_ := c.lruList_.capacity_ - 1
      lst_ := { c.lruList_.lst_ with nodes := StdList.remove i c.lruList_.lst_.nodes } }
  { c with
    lruList_ := l1
    calls :=
      if c.evictCallback_ then c.calls ++ [{ arg := e, lruMap_ := c.lruMap_, lruList_ := l1 }]
      else c.calls
    lruMap_ := c.lruMap_.erase e.key }

/-- The representation invariant of the cache. -/
structure Inv (c : LRU T) : Prop where
  fixed_lt : c.fixedCapacity_ < UINT_MOD
  count_eq : c.lruList_.capacity_ = c.nodes.length
  count_le : c.lruList_.capacity_ ≤ c.fixedCapacity_
  ids_lt : ∀ n ∈ c.nodes, n.1 < c.lruList_.lst_.nextId
  ids_nodup : (c.nodes.map Prod.fst).Nodup
  keys_nodup : (c.nodes.map (fun n => n.2.key)).Nodup
  keys_ne : ∀ n ∈ c.nodes, n.2.key.length ≠ 0
  index : c.lruMap_.Perm (c.nodes.map (fun n => (n.2.key, Iter.node n.1)))

/-- A state of a cache constructed with some capacity and then driven by `Put`, `Get` and `Del`
calls, each of which has defined behaviour. -/
def Reachable (c : LRU T) : Prop :=
  ∃ (fixed : Nat) (callback : Bool) (ops : List (Op T)),
    fixed < UINT_MOD ∧ (LRU.new fixed callback).run ops = some c

end LRU

/-! ## Traces -/

/-- One call of a run: the cache before it, the call, what it returned, the cache after it. -/
structure Step (T : Type) where
  pre : LRU T
  op : Op T
  ret : Ret T
  post : LRU T

namespace Step

variable {T : Type}

/-- The call inserted the key: it is a `Put` of the key that returned `true`. -/
def inserts (s : Step T) (key : String) : Bool :=
  match s.op, s.ret with
  | .Put k _, .bool true => k = key
  | _, _ => false

/-- The call refreshed the key: it is a `Put` of the key, held by the cache, that returned
`false`, or a `Get` of the key that returned a pointer other than `nullptr`. -/
def refreshes (s : Step T) (key : String) : Bool :=
  match s.op, s.ret with
  | .Put k _, .bool false => k = key && decide (key ∈ s.pre.keys)
  | .Get k, .ptr (some _) => k = key
  | _, _ => false

/-- The call touched the key: it inserted or refreshed it. -/
def touches (s : Step T) (key : String) : Bool := s.inserts key || s.refreshes key

/-- The call deleted the key: it is a `Del` of the key that returned `true`. -/
def deletes (s : Step T) (key : String) : Bool :=
  match s.op, s.ret with
  | .Del k, .bool true => k = key
  | _, _ => false

/-- The call evicted the key: it is a `Put` that returned `true` while the element count had
reached the bound, and the key is the one at the back of the recency list before the call. -/
def evicts (s : Step T) (key : String) : Bool :=
  match s.op, s.ret with
  | .Put _ _, .bool true =>
    decide (s.pre.fixedCapacity_ ≤ s.pre.lruList_.Capacity) &&
      decide (s.pre.keys.getLast? = some key)
  | _, _ => false

end Step

namespace LRU

variable {T : Type}

/-- The calls of a run with what they returned, up to the first call with undefined behaviour. -/
def trace (c : LRU T) : List (Op T) → List (Step T)
  | [] => []
  | op :: ops =>
    match c.step op with
    | none => []
    | some r => { pre := c, op := op, ret := r.1, post := r.2 } :: trace r.2 ops

end LRU

/-- The position, counted from 1, of the last call of a trace that touched the key; 0 when no
call did. -/
def lastTouch {T : Type} (tr : List (Step T)) (key : String) : Nat :=
  tr.length - tr.reverse.findIdx (fun s => s.touches key)

/-- The history condition of retrievability: some call of the trace inserted the key, and no
later call inserted, deleted or evicted it. -/
def Retrievable {T : Type} (tr : List (Step T)) (key : String) : Prop :=
  ∃ (before : List (Step T)) (s : Step T) (after : List (Step T)),
    tr = before ++ s :: after ∧ s.inserts key = true ∧
    ∀ t ∈ after, t.inserts key = false ∧ t.deletes key = false ∧ t.evicts key = false

/-- The recency list lists its keys from the most recently touched to the least recently touched
one. -/
def RecencyOrdered {T : Type} (tr : List (Step T)) (c : LRU T) : Prop :=
  (c.keys.map (lastTouch tr)).Pairwise (fun a b => b < a)

/-! ## Calls of the class `List<T>` -/

/-- A call of one of the three mutating member functions of `List<T>`. -/
inductive ListOp (T : Type) where
  | PushFront (entry : Entry T)
  | MoveToFront (it : Iter)
  | Remove (it : Iter)
  deriving DecidableEq

namespace ListT

variable {T : Type}

/-- One call on a list: the list afterwards, `none` when the call has undefined behaviour (the
iterator refers to no live node and is dereferenced or erased). -/
def call (l : ListT T) : ListOp T → Option (ListT T)
  | .PushFront entry => some (l.PushFront entry).2
  | .MoveToFront it =>
    match l.MoveToFront it with
    | none => none
    | some r => some r.2
  | .Remove it =>
    match l.Remove it with
    | none => none
    | some r => some r.2

/-- A sequence of calls on a list, one after the other. -/
def runOps (l : ListT T) : List (ListOp T) → Option (ListT T)
  | [] => some l
  | op :: ops =>
    match l.call op with
    | none => none
    | some l1 => runOps l1 ops

/-- The representation invariant of a list: the counter is the number of nodes modulo `2 ^ 32`,
the nodes have pairwise distinct identities, all handed out by the allocator before. -/
structure LInv (l : ListT T) : Prop where
  count_mod : l.capacity_ = l.lst_.nodes.length % UINT_MOD
  ids_nodup : (l.lst_.nodes.map Prod.fst).Nodup
  ids_lt : ∀ n ∈ l.lst_.nodes, n.1 < l.lst_.nextId

end ListT

namespace LRU

variable {T : Type}

/-- The entries of the cache `c` whose keys the cache `c1` does not hold, in recency order: the
entries removed between `c` and `c1`. -/
def removedBy (c c1 : LRU T) : List (Entry T) :=
  c.entries.filter (fun e => decide (e.key ∉ c1.keys))

end LRU

/-! ## The pointer returned by `Get` -/

namespace StdList

variable {T : Type}

/-- The nodes after the value of the first node with the given identity was overwritten. -/
def setValue (i : Nat) (v : T) : List (Nat × Entry T) → List (Nat × Entry T)
  | [] => []
  | n :: ns =>
    if n.1 = i then (n.1, { key := n.2.key, value := v }) :: ns else n :: setValue i v ns

/-- The assignment `it->value = v`, a write to the value of the node an iterator refers to:
undefined for `end()` and for an iterator to no live node. -/
def store (l : StdList T) (it : Iter) (v : T) : Option (StdList T) :=
  match l.deref it, it with
  | some _, .node i => some { l with nodes := setValue i v l.nodes }
  | _, _ => none

end StdList

namespace LRU

variable {T : Type}

/-- The member `Get` (LRU.h:135-147) with its result as the pointer it is in the source,
`&newIt->value`: the iterator to the node whose value the pointer points to, `none` for
`nullptr`. The type of the result is `T*`, a pointer to a value that is not `const`. -/
def GetPtr (c : LRU T) (key : String) : Option (Option Iter × LRU T) :=
  if key.length = 0 then some (none, c)
  else
    match c.lruMap_.find key with
    | none => some (none, c)
    | some p =>
      match c.lruList_.MoveToFront p.2 with
      | none => none
      | some (newIt, l1) =>
        some (some newIt, { c with lruList_ := l1, lruMap_ := c.lruMap_.assign key newIt })

/-- The assignment `*p = v` a caller makes through a pointer `p` that `Get` returned: undefined
when the node the pointer points into is no longer live. -/
def store (c : LRU T) (p : Iter) (v : T) : Option (LRU T) :=
  match c.lruList_.lst_.store p v with
  | none => none
  | some lst1 => some { c with lruList_ := { c.lruList_ with lst_ := lst1 } }

end LRU

/-! ## Example caches -/

/-- The calls `Put("a",1)`, `Put("b",2)`. -/
def exampleOps : List (Op Nat) := [.Put "a" 1, .Put "b" 2]

/-- A cache with bound 2 and a callback after the calls `exampleOps`. -/
def exampleCache : LRU Nat :=
  { fixedCapacity_ := 2
    lruMap_ := [("a", .node 0), ("b", .node 1)]
    lruList_ :=
      { capacity_ := 2
        lst_ := { nodes := [(1, { key := "b", value := 2 }), (0, { key := "a", value := 1 })]
                  nextId := 2 } }
    evictCallback_ := true
    calls := [] }

/-- A cache with bound 2 and a callback after the call `Put("a",1)`. -/
def exampleCache1 : LRU Nat :=
  { fixedCapacity_ := 2
    lruMap_ := [("a", .node 0)]
    lruList_ :=
      { capacity_ := 1
        lst_ := { nodes := [(0, { key := "a", value := 1 })], nextId := 1 } }
    evictCallback_ := true
    calls := [] }

/-- The calls `PushFront(("a",1))`, `PushFront(("b",2))`, `MoveToFront` of the node of `a`,
`Remove` of the node of `b`. -/
def exampleListOps : List (ListOp Nat) :=
  [.PushFront { key := "a", value := 1 }, .PushFront { key := "b", value := 2 },
    .MoveToFront (.node 0), .Remove (.node 1)]

/-- A new list after the calls `exampleListOps`. -/
def exampleList : ListT Nat :=
  { capacity_ := 1, lst_ := { nodes := [(2, { key := "a", value := 1 })], nextId := 3 } }


/-! ## Facts about the list and map models -/

namespace StdList

variable {T : Type}

theorem mem_of_lookup {i : Nat} {e : Entry T} {ns : List (Nat × Entry T)}
    (h : lookup i ns = some e) : (i, e) ∈ ns := by
  induction ns with
  | nil => simp [lookup] at h
  | cons n ns ih =>
    unfold lookup at h
    split at h
    · next hn =>
      cases n
      simp only [Option.some.injEq] at h hn
      subst hn; subst h
      exact List.mem_cons_self _ _
    · exact List.mem_cons_of_mem _ (ih h)

theorem lookup_of_mem {i : Nat} {e : Entry T} {ns : List (Nat × Entry T)}
    (hnd : (ns.map Prod.fst).Nodup) (h : (i, e) ∈ ns) : lookup i ns = some e := by
  induction ns with
  | nil => simp at h
  | cons n ns ih =>
    rw [List.map_cons, List.nodup_cons] at hnd
    unfold lookup
    rcases List.mem_cons.1 h with h1 | h1
    · subst h1; simp
    · have hne : n.1 ≠ i := by
        intro hn
        apply hnd.1
        rw [hn]
        exact List.mem_map_of_mem Prod.fst h1
      rw [if_neg hne]
      exact ih hnd.2 h1

theorem remove_eq_filter {i : Nat} {ns : List (Nat × Entry T)}
    (hnd : (ns.map Prod.fst).Nodup) : remove i ns = ns.filter (fun n => n.1 ≠ i) := by
  induction ns with
  | nil => rfl
  | cons n ns ih =>
    rw [List.map_cons, List.nodup_cons] at hnd
    unfold remove
    by_cases hn : n.1 = i
    · rw [if_pos hn, List.filter_cons_of_neg (by simpa using hn)]
      symm
      rw [List.filter_eq_self]
      intro a ha
      have : a.1 ≠ i := by
        intro hai
        apply hnd.1
        rw [hn, ← hai]
        exact List.mem_map_of_mem Prod.fst ha
      simpa using this
    · rw [if_neg hn, List.filter_cons_of_pos (by simpa using hn), ih hnd.2]

end StdList

namespace StdMap

theorem erase_eq_filter (m : StdMap) (key : String) :
    erase m key = m.filter (fun p => p.1 ≠ key) := by
  induction m with
  | nil => rfl
  | cons p m ih =>
    unfold erase
    by_cases hp : p.1 = key
    · rw [if_pos hp, List.filter_cons_of_neg (by simpa using hp), ih]
    · rw [if_neg hp, List.filter_cons_of_pos (by simpa using hp), ih]

theorem find_eq_none_iff {m : StdMap} {key : String} :
    find m key = none ↔ key ∉ m.map Prod.fst := by
  induction m with
  | nil => simp [find]
  | cons p m ih =>
    unfold find
    by_cases hp : p.1 = key
    · simp [hp]
    · rw [if_neg hp, ih]
      simp [hp, Ne.symm hp]

theorem find_eq_some {m : StdMap} {key : String} {p : String × Iter}
    (h : find m key = some p) : p ∈ m ∧ p.1 = key := by
  induction m with
  | nil => simp [find] at h
  | cons q m ih =>
    unfold find at h
    split at h
    · next hq =>
      simp only [Option.some.injEq] at h
      subst h
      exact ⟨List.mem_cons_self _ _, hq⟩
    · exact ⟨List.mem_cons_of_mem _ (ih h).1, (ih h).2⟩

theorem find_of_mem {m : StdMap} {p : String × Iter}
    (hnd : (m.map Prod.fst).Nodup) (h : p ∈ m) : find m p.1 = some p := by
  induction m with
  | nil => simp at h
  | cons q m ih =>
    rw [List.map_cons, List.nodup_cons] at hnd
    unfold find
    rcases List.mem_cons.1 h with h1 | h1
    · subst h1; simp
    · have hne : q.1 ≠ p.1 := by
        intro hq
        apply hnd.1
        rw [hq]
        exact List.mem_map_of_mem Prod.fst h1
      rw [if_neg hne]
      exact ih hnd.2 h1

theorem assign_perm {m : StdMap} (key : String) (it : Iter)
    (hnd : (m.map Prod.fst).Nodup) :
    (assign m key it).Perm ((key, it) :: m.filter (fun p => p.1 ≠ key)) := by
  induction m with
  | nil => simp [assign]
  | cons p m ih =>
    rw [List.map_cons, List.nodup_cons] at hnd
    unfold assign
    by_cases hp : p.1 = key
    · rw [if_pos hp, List.filter_cons_of_neg (by simpa using hp)]
      have : m.filter (fun p => p.1 ≠ key) = m := by
        rw [List.filter_eq_self]
        intro a ha
        have : a.1 ≠ key := by
          intro hak
          apply hnd.1
          rw [hp, ← hak]
          exact List.mem_map_of_mem Prod.fst ha
        simpa using this
      rw [this]
    · rw [if_neg hp, List.filter_cons_of_pos (by simpa using hp)]
      exact ((ih hnd.2).cons p).trans (List.Perm.swap _ _ _)

end StdMap

namespace LRU

variable {T : Type}

theorem uint_succ {n m : Nat} (h : n < m) (hm : m < UINT_MOD) :
    (n + 1) % UINT_MOD = n + 1 := by
  apply Nat.mod_eq_of_lt
  omega

theorem uint_pred {n : Nat} (h : 0 < n) (hn : n < UINT_MOD) :
    (n + UINT_MOD - 1) % UINT_MOD = n - 1 := by
  have e : n + UINT_MOD - 1 = (n - 1) + UINT_MOD := by omega
  rw [e, Nat.add_mod_right]
  apply Nat.mod_eq_of_lt
  omega

theorem inv_new (fixed : Nat) (callback : Bool) (h : fixed < UINT_MOD) :
    Inv (LRU.new fixed callback : LRU T) := by
  have hf : (LRU.new fixed callback : LRU T).fixedCapacity_ = fixed := by
    simp only [LRU.new]
    split <;> omega
  constructor
  · rw [hf]; exact h
  · rfl
  · simp [LRU.new, ListT.new]
  · simp [LRU.new, ListT.new, nodes, StdList.empty]
  · simp [LRU.new, ListT.new, nodes, StdList.empty]
  · simp [LRU.new, ListT.new, nodes, StdList.empty]
  · simp [LRU.new, ListT.new, nodes, StdList.empty]
  · simp [LRU.new, ListT.new, nodes, StdList.empty]

theorem Inv.map_keys {c : LRU T} (h : Inv c) :
    (c.lruMap_.map Prod.fst).Perm c.keys := by
  have := h.index.map Prod.fst
  simpa [keys, entries, List.map_map, Function.comp_def] using this

theorem Inv.map_nodup {c : LRU T} (h : Inv c) : (c.lruMap_.map Prod.fst).Nodup := by
  rw [h.map_keys.nodup_iff]
  have := h.keys_nodup
  simpa [keys, entries, List.map_map, Function.comp_def] using this

/-- A pair found in the index refers to a live node that holds the key. -/
theorem Inv.index_lookup {c : LRU T} (h : Inv c) {key : String} {p : String × Iter}
    (hf : c.lruMap_.find key = some p) :
    ∃ i e, p = (key, Iter.node i) ∧ StdList.lookup i c.nodes = some e ∧ e.key = key := by
  obtain ⟨hm, hk⟩ := StdMap.find_eq_some hf
  have := (h.index.mem_iff).1 hm
  rw [List.mem_map] at this
  obtain ⟨n, hn, hp⟩ := this
  refine ⟨n.1, n.2, ?_, StdList.lookup_of_mem h.ids_nodup hn, ?_⟩
  · rw [← hp, ← hk, ← hp]
  · rw [← hk, ← hp]

/-- A key held by a node is found in the index, with the iterator to that node. -/
theorem Inv.find_of_node {c : LRU T} (h : Inv c) {i : Nat} {e : Entry T}
    (hn : (i, e) ∈ c.nodes) : c.lruMap_.find e.key = some (e.key, Iter.node i) := by
  have hm : (e.key, Iter.node i) ∈ c.lruMap_ := by
    rw [h.index.mem_iff, List.mem_map]
    exact ⟨(i, e), hn, rfl⟩
  exact StdMap.find_of_mem h.map_nodup hm

theorem Inv.find_none_iff {c : LRU T} (h : Inv c) (key : String) :
    c.lruMap_.find key = none ↔ key ∉ c.keys := by
  rw [StdMap.find_eq_none_iff, h.map_keys.mem_iff]

end LRU
namespace StdList

variable {T : Type}

theorem length_remove {i : Nat} {e : Entry T} {ns : List (Nat × Entry T)}
    (h : lookup i ns = some e) : (remove i ns).length + 1 = ns.length := by
  induction ns with
  | nil => simp [lookup] at h
  | cons n ns ih =>
    unfold lookup at h
    unfold remove
    by_cases hn : n.1 = i
    · simp [hn]
    · rw [if_neg hn] at h
      rw [if_neg hn, List.length_cons, List.length_cons, ih h]

end StdList

namespace LRU

variable {T : Type}

/-- In a state that satisfies the invariant, the nodes other than the one with identity `i` are
the nodes whose key differs from the key of that node. -/
theorem Inv.remove_eq {c : LRU T} (h : Inv c) {i : Nat} {e : Entry T}
    (hl : StdList.lookup i c.nodes = some e) :
    StdList.remove i c.nodes = c.nodes.filter (fun n => n.2.key ≠ e.key) := by
  rw [StdList.remove_eq_filter h.ids_nodup]
  apply List.filter_congr
  intro n hn
  have hmem := StdList.mem_of_lookup hl
  by_cases hi : n.1 = i
  · have : n = (i, e) := List.inj_on_of_nodup_map h.ids_nodup hn hmem hi
    subst this
    simp
  · have : n.2.key ≠ e.key := by
      intro hk
      have : n = (i, e) := List.inj_on_of_nodup_map h.keys_nodup hn hmem hk
      apply hi
      rw [this]
    simp [hi, this]

theorem MoveToFront_node {l : ListT T} {i : Nat} {e : Entry T}
    (h : StdList.lookup i l.lst_.nodes = some e) :
    l.MoveToFront (Iter.node i) =
      some (Iter.node l.lst_.nextId,
        { l with
          lst_ :=
            { nodes := (l.lst_.nextId, e) :: StdList.remove i l.lst_.nodes
              nextId := l.lst_.nextId + 1 } }) := by
  simp [ListT.MoveToFront, StdList.deref, StdList.erase, h, StdList.insertBegin]

/-- What `Put` does for a key that is in the index. -/
theorem Put_present {c : LRU T} {key : String} (value : T) {i : Nat} {e : Entry T}
    (hk : key.length ≠ 0) (hf : c.lruMap_.find key = some (key, Iter.node i))
    (hl : StdList.lookup i c.nodes = some e) :
    c.Put key value = some (false, c.refreshed key i e) := by
  unfold nodes at hl
  simp [Put, hk, hf, MoveToFront_node hl, refreshed]

/-- What `Get` does for a key that is in the index. -/
theorem Get_present {c : LRU T} {key : String} {i : Nat} {e : Entry T}
    (hk : key.length ≠ 0) (hf : c.lruMap_.find key = some (key, Iter.node i))
    (hl : StdList.lookup i c.nodes = some e) :
    c.Get key = some (some e.value, c.refreshed key i e) := by
  unfold nodes at hl
  simp [Get, hk, hf, MoveToFront_node hl, refreshed, StdList.deref, StdList.lookup]

theorem nodes_refreshed (c : LRU T) (key : String) (i : Nat) (e : Entry T) :
    (c.refreshed key i e).nodes = (c.lruList_.lst_.nextId, e) :: StdList.remove i c.nodes := rfl

/-- The index after an assignment, as a permutation. -/
theorem Inv.assign_index_perm {c : LRU T} (h : Inv c) (key : String) (it : Iter) :
    (c.lruMap_.assign key it).Perm
      ((key, it) :: (c.nodes.filter (fun n => n.2.key ≠ key)).map
        (fun n => (n.2.key, Iter.node n.1))) := by
  refine (StdMap.assign_perm key it h.map_nodup).trans (List.Perm.cons _ ?_)
  have := h.index.filter (fun p => decide (p.1 ≠ key))
  rw [List.filter_map] at this
  exact this

theorem inv_refreshed {c : LRU T} (h : Inv c) {key : String} {i : Nat} {e : Entry T}
    (hl : StdList.lookup i c.nodes = some e) (hek : e.key = key) :
    Inv (c.refreshed key i e) := by
  have hmem := StdList.mem_of_lookup hl
  have hrm := h.remove_eq hl
  have hsub : (c.nodes.filter (fun n => n.2.key ≠ e.key)).Sublist c.nodes :=
    List.filter_sublist _
  constructor
  · exact h.fixed_lt
  · rw [nodes_refreshed, List.length_cons, StdList.length_remove hl]
    exact h.count_eq
  · exact h.count_le
  · intro n hn
    rw [nodes_refreshed, hrm] at hn
    rcases List.mem_cons.1 hn with h1 | h1
    · subst h1
      exact Nat.lt_succ_self _
    · exact Nat.lt_succ_of_lt (h.ids_lt n (hsub.subset h1))
  · rw [nodes_refreshed, hrm, List.map_cons, List.nodup_cons]
    refine ⟨?_, h.ids_nodup.sublist (hsub.map _)⟩
    intro hin
    obtain ⟨n, hn, hid⟩ := List.mem_map.1 hin
    have := h.ids_lt n (hsub.subset hn)
    simp only at hid
    omega
  · rw [nodes_refreshed, hrm, List.map_cons, List.nodup_cons]
    refine ⟨?_, h.keys_nodup.sublist (hsub.map _)⟩
    intro hin
    obtain ⟨n, hn, hkey⟩ := List.mem_map.1 hin
    have := (List.mem_filter.1 hn).2
    simp at this
    exact this hkey
  · intro n hn
    rw [nodes_refreshed, hrm] at hn
    rcases List.mem_cons.1 hn with h1 | h1
    · subst h1
      exact h.keys_ne (i, e) hmem
    · exact h.keys_ne n (hsub.subset h1)
  · rw [nodes_refreshed, hrm, List.map_cons]
    have := h.assign_index_perm key (Iter.node c.lruList_.lst_.nextId)
    simpa [refreshed, hek] using this

end LRU
namespace LRU

variable {T : Type}

theorem nodes_deleted (c : LRU T) (i : Nat) (e : Entry T) :
    (c.deleted i e).nodes = StdList.remove i c.nodes := rfl

/-- What `_Delete` does for an iterator to a live node. -/
theorem _Delete_node {c : LRU T} (h : Inv c) {i : Nat} {e : Entry T}
    (hl : StdList.lookup i c.nodes = some e) :
    c._Delete (Iter.node i) = some (c.deleted i e) := by
  have hlen := StdList.length_remove hl
  have hpos : 0 < c.lruList_.capacity_ := by
    rw [h.count_eq]
    omega
  have hsize : 0 < c.lruList_.lst_.nodes.length := by
    have := h.count_eq
    unfold nodes at this
    omega
  have hcap := uint_pred hpos (Nat.lt_of_le_of_lt h.count_le h.fixed_lt)
  unfold nodes at hl
  simp only [_Delete, ListT.IsEnd, ListT.Remove, StdList.deref, StdList.erase, StdList.size, hl,
    hcap, deleted]
  simp [hpos, hsize]
  cases hcb : c.evictCallback_ <;> simp

theorem inv_deleted {c : LRU T} (h : Inv c) {i : Nat} {e : Entry T}
    (hl : StdList.lookup i c.nodes = some e) :
    Inv (c.deleted i e) ∧ (c.deleted i e).lruList_.capacity_ + 1 = c.lruList_.capacity_ := by
  have hmem := StdList.mem_of_lookup hl
  have hrm := h.remove_eq hl
  have hlen := StdList.length_remove hl
  have hsub : (c.nodes.filter (fun n => n.2.key ≠ e.key)).Sublist c.nodes :=
    List.filter_sublist _
  have hcnt := h.count_eq
  have hle := h.count_le
  have hc : (c.deleted i e).lruList_.capacity_ = c.lruList_.capacity_ - 1 := rfl
  have hfx : (c.deleted i e).fixedCapacity_ = c.fixedCapacity_ := rfl
  refine ⟨?_, by omega⟩
  constructor
  · exact h.fixed_lt
  · rw [nodes_deleted, hc]
    omega
  · rw [hc, hfx]
    omega
  · intro n hn
    rw [nodes_deleted, hrm] at hn
    exact h.ids_lt n (hsub.subset hn)
  · rw [nodes_deleted, hrm]
    exact h.ids_nodup.sublist (hsub.map _)
  · rw [nodes_deleted, hrm]
    exact h.keys_nodup.sublist (hsub.map _)
  · intro n hn
    rw [nodes_deleted, hrm] at hn
    exact h.keys_ne n (hsub.subset hn)
  · rw [nodes_deleted, hrm]
    have := h.index.filter (fun p => decide (p.1 ≠ e.key))
    rw [List.filter_map] at this
    have hm : (c.deleted i e).lruMap_ = c.lruMap_.erase e.key := rfl
    rw [hm, StdMap.erase_eq_filter]
    exact this

theorem nodes_putNew (c : LRU T) (key : String) (value : T) :
    (c.putNew key value).2.nodes =
      (c.lruList_.lst_.nextId, { key := key, value := value }) :: c.nodes := rfl

theorem inv_putNew {c : LRU T} (h : Inv c) {key : String} (value : T)
    (hlt : c.lruList_.capacity_ < c.fixedCapacity_) (hk : key.length ≠ 0)
    (hf : c.lruMap_.find key = none) :
    Inv (c.putNew key value).2 ∧
      (c.putNew key value).2.lruList_.capacity_ = c.lruList_.capacity_ + 1 := by
  have hcap := uint_succ hlt h.fixed_lt
  have hc : (c.putNew key value).2.lruList_.capacity_ = c.lruList_.capacity_ + 1 := by
    simp only [putNew, ListT.PushFront, hcap]
  have hfx : (c.putNew key value).2.fixedCapacity_ = c.fixedCapacity_ := rfl
  have hnotin := (h.find_none_iff key).1 hf
  have hcnt := h.count_eq
  refine ⟨?_, hc⟩
  constructor
  · exact h.fixed_lt
  · rw [nodes_putNew, hc, List.length_cons]
    omega
  · rw [hc, hfx]
    omega
  · intro n hn
    rw [nodes_putNew] at hn
    have hid : (c.putNew key value).2.lruList_.lst_.nextId = c.lruList_.lst_.nextId + 1 := rfl
    rw [hid]
    rcases List.mem_cons.1 hn with h1 | h1
    · subst h1
      exact Nat.lt_succ_self _
    · exact Nat.lt_succ_of_lt (h.ids_lt n h1)
  · rw [nodes_putNew, List.map_cons, List.nodup_cons]
    refine ⟨?_, h.ids_nodup⟩
    intro hin
    obtain ⟨n, hn, hid⟩ := List.mem_map.1 hin
    have := h.ids_lt n hn
    simp only at hid
    omega
  · rw [nodes_putNew, List.map_cons, List.nodup_cons]
    refine ⟨?_, h.keys_nodup⟩
    intro hin
    apply hnotin
    simpa [keys, entries, List.map_map, Function.comp_def] using hin
  · intro n hn
    rw [nodes_putNew] at hn
    rcases List.mem_cons.1 hn with h1 | h1
    · subst h1
      exact hk
    · exact h.keys_ne n h1
  · rw [nodes_putNew, List.map_cons]
    have := h.assign_index_perm key (Iter.node c.lruList_.lst_.nextId)
    have hfl : c.nodes.filter (fun n => n.2.key ≠ key) = c.nodes := by
      rw [List.filter_eq_self]
      intro n hn
      have : n.2.key ≠ key := by
        intro hkey
        apply hnotin
        rw [← hkey]
        simp only [keys, entries, List.map_map]
        exact List.mem_map_of_mem (Entry.key ∘ Prod.snd) hn
      simpa using this
    rw [hfl] at this
    exact this

end LRU
namespace LRU

variable {T : Type}

/-- The back of a recency list that holds an entry: the iterator to its last node. -/
theorem Inv.Back_node {c : LRU T} (h : Inv c) (hpos : 0 < c.lruList_.capacity_) :
    ∃ n, c.nodes.getLast? = some n ∧ c.lruList_.Back = Iter.node n.1 ∧
      StdList.lookup n.1 c.nodes = some n.2 := by
  have hcnt := h.count_eq
  have hne : c.nodes ≠ [] := by
    intro hnil
    rw [hnil] at hcnt
    simp at hcnt
    omega
  obtain ⟨n, hn⟩ : ∃ n, c.nodes.getLast? = some n := by
    cases hg : c.nodes.getLast? with
    | none => exact absurd (List.getLast?_eq_none_iff.1 hg) hne
    | some n => exact ⟨n, rfl⟩
  refine ⟨n, hn, ?_, ?_⟩
  · have hsize : 0 < c.lruList_.lst_.nodes.length := by
      unfold nodes at hcnt
      omega
    unfold nodes at hn
    simp [ListT.Back, StdList.size, StdList.beforeEnd, hn, hpos, hsize]
  · exact StdList.lookup_of_mem h.ids_nodup (List.mem_of_getLast?_eq_some hn)

/-- The back of a recency list whose counter is zero is `end()`. -/
theorem Back_zero {c : LRU T} (hz : c.lruList_.capacity_ = 0) :
    c.lruList_.Back = Iter.pastEnd := by
  simp [ListT.Back, hz]

/-- What `Put` does for a new key when the counter is below the bound. -/
theorem Put_absent_room {c : LRU T} {key : String} (value : T) (hk : key.length ≠ 0)
    (hf : c.lruMap_.find key = none) (hlt : c.lruList_.capacity_ < c.fixedCapacity_) :
    c.Put key value = some (c.putNew key value) := by
  have : ¬ c.fixedCapacity_ ≤ c.lruList_.capacity_ := by omega
  simp [Put, hk, hf, ListT.Capacity, this]

/-- What `Put` does for a new key when the counter has reached the bound and the list holds an
entry: the last node is deleted, then the new entry is pushed. -/
theorem Put_absent_full {c : LRU T} (h : Inv c) {key : String} (value : T) (hk : key.length ≠ 0)
    (hf : c.lruMap_.find key = none) (hle : c.fixedCapacity_ ≤ c.lruList_.capacity_)
    (hpos : 0 < c.lruList_.capacity_) {n : Nat × Entry T} (hn : c.nodes.getLast? = some n) :
    c.Put key value = some ((c.deleted n.1 n.2).putNew key value) := by
  obtain ⟨n1, hn1, hb, hl⟩ := h.Back_node hpos
  rw [hn] at hn1
  cases hn1
  simp [Put, hk, hf, ListT.Capacity, hle, hb, ListT.IsEnd, _Delete_node h hl]

/-- What `Put` does for a new key when the counter has reached the bound and is zero. -/
theorem Put_absent_zero {c : LRU T} {key : String} (value : T) (hk : key.length ≠ 0)
    (hf : c.lruMap_.find key = none) (hle : c.fixedCapacity_ ≤ c.lruList_.capacity_)
    (hz : c.lruList_.capacity_ = 0) :
    c.Put key value = some (false, c) := by
  simp [Put, hk, hf, ListT.Capacity, hle, Back_zero hz, ListT.IsEnd]

/-- What `Del` does for a key that is in the index. -/
theorem Del_present {c : LRU T} (h : Inv c) {key : String} {i : Nat} {e : Entry T}
    (hk : key.length ≠ 0) (hf : c.lruMap_.find key = some (key, Iter.node i))
    (hl : StdList.lookup i c.nodes = some e) :
    c.Del key = some (true, c.deleted i e) := by
  have hlen := StdList.length_remove hl
  have hpos : ¬ c.lruList_.capacity_ = 0 := by
    rw [h.count_eq]
    omega
  simp [Del, hk, hf, ListT.Capacity, hpos, _Delete_node h hl]

/-- What `Del` does for a key that is not in the index while the counter is positive: the
dereference of the map iterator `end()` (LRU.h:158). -/
theorem Del_absent {c : LRU T} {key : String} (hk : key.length ≠ 0)
    (hf : c.lruMap_.find key = none) (hpos : 0 < c.lruList_.capacity_) :
    c.Del key = none := by
  have : ¬ c.lruList_.capacity_ = 0 := by omega
  simp [Del, hk, hf, ListT.Capacity, this]

/-- What `Del` does when the counter is zero. -/
theorem Del_zero {c : LRU T} (key : String) (hz : c.lruList_.capacity_ = 0) :
    c.Del key = some (false, c) := by
  simp [Del, ListT.Capacity, hz]

theorem Put_empty (c : LRU T) {key : String} (value : T) (hk : key.length = 0) :
    c.Put key value = some (false, c) := by
  simp [Put, hk]

theorem Get_empty (c : LRU T) {key : String} (hk : key.length = 0) :
    c.Get key = some (none, c) := by
  simp [Get, hk]

theorem Get_absent (c : LRU T) {key : String} (hf : c.lruMap_.find key = none) :
    c.Get key = some (none, c) := by
  simp [Get, hf]

theorem Del_empty (c : LRU T) {key : String} (hk : key.length = 0) :
    c.Del key = some (false, c) := by
  simp [Del, hk]

/-- The five ways of `Put` in a state that satisfies the invariant. -/
theorem Put_cases {c : LRU T} (h : Inv c) (key : String) (value : T) :
    (key.length = 0 ∧ c.Put key value = some (false, c)) ∨
    (key.length ≠ 0 ∧ ∃ i e, c.lruMap_.find key = some (key, Iter.node i) ∧
      StdList.lookup i c.nodes = some e ∧ e.key = key ∧
      c.Put key value = some (false, c.refreshed key i e)) ∨
    (key.length ≠ 0 ∧ c.lruMap_.find key = none ∧ c.lruList_.capacity_ < c.fixedCapacity_ ∧
      c.Put key value = some (c.putNew key value)) ∨
    (key.length ≠ 0 ∧ c.lruMap_.find key = none ∧ c.fixedCapacity_ ≤ c.lruList_.capacity_ ∧
      c.lruList_.capacity_ = 0 ∧ c.Put key value = some (false, c)) ∨
    (key.length ≠ 0 ∧ c.lruMap_.find key = none ∧ c.fixedCapacity_ ≤ c.lruList_.capacity_ ∧
      0 < c.lruList_.capacity_ ∧ ∃ n, c.nodes.getLast? = some n ∧
      StdList.lookup n.1 c.nodes = some n.2 ∧
      c.Put key value = some ((c.deleted n.1 n.2).putNew key value)) := by
  by_cases hk : key.length = 0
  · exact Or.inl ⟨hk, Put_empty c value hk⟩
  cases hf : c.lruMap_.find key with
  | some p =>
    obtain ⟨i, e, hpe, hl, hek⟩ := h.index_lookup hf
    subst hpe
    exact Or.inr (Or.inl ⟨hk, i, e, rfl, hl, hek, Put_present value hk hf hl⟩)
  | none =>
    by_cases hlt : c.lruList_.capacity_ < c.fixedCapacity_
    · exact Or.inr (Or.inr (Or.inl ⟨hk, rfl, hlt, Put_absent_room value hk hf hlt⟩))
    · have hle : c.fixedCapacity_ ≤ c.lruList_.capacity_ := by omega
      by_cases hz : c.lruList_.capacity_ = 0
      · exact Or.inr (Or.inr (Or.inr (Or.inl
          ⟨hk, rfl, hle, hz, Put_absent_zero value hk hf hle hz⟩)))
      · have hpos : 0 < c.lruList_.capacity_ := by omega
        obtain ⟨n, hn, _, hl⟩ := h.Back_node hpos
        exact Or.inr (Or.inr (Or.inr (Or.inr
          ⟨hk, rfl, hle, hpos, n, hn, hl, Put_absent_full h value hk hf hle hpos hn⟩)))

/-- The two ways of `Get` in a state that satisfies the invariant. -/
theorem Get_cases {c : LRU T} (h : Inv c) (key : String) :
    ((key.length = 0 ∨ c.lruMap_.find key = none) ∧ c.Get key = some (none, c)) ∨
    (key.length ≠ 0 ∧ ∃ i e, c.lruMap_.find key = some (key, Iter.node i) ∧
      StdList.lookup i c.nodes = some e ∧ e.key = key ∧
      c.Get key = some (some e.value, c.refreshed key i e)) := by
  by_cases hk : key.length = 0
  · exact Or.inl ⟨Or.inl hk, Get_empty c hk⟩
  cases hf : c.lruMap_.find key with
  | some p =>
    obtain ⟨i, e, hpe, hl, hek⟩ := h.index_lookup hf
    subst hpe
    exact Or.inr ⟨hk, i, e, rfl, hl, hek, Get_present hk hf hl⟩
  | none => exact Or.inl ⟨Or.inr rfl, Get_absent c hf⟩

/-- The three ways of `Del` in a state that satisfies the invariant. -/
theorem Del_cases {c : LRU T} (h : Inv c) (key : String) :
    ((key.length = 0 ∨ c.lruList_.capacity_ = 0) ∧ c.Del key = some (false, c)) ∨
    (key.length ≠ 0 ∧ ∃ i e, c.lruMap_.find key = some (key, Iter.node i) ∧
      StdList.lookup i c.nodes = some e ∧ e.key = key ∧
      c.Del key = some (true, c.deleted i e)) ∨
    (key.length ≠ 0 ∧ 0 < c.lruList_.capacity_ ∧ c.lruMap_.find key = none ∧
      c.Del key = none) := by
  by_cases hk : key.length = 0
  · exact Or.inl ⟨Or.inl hk, Del_empty c hk⟩
  by_cases hz : c.lruList_.capacity_ = 0
  · exact Or.inl ⟨Or.inr hz, Del_zero key hz⟩
  cases hf : c.lruMap_.find key with
  | some p =>
    obtain ⟨i, e, hpe, hl, hek⟩ := h.index_lookup hf
    subst hpe
    exact Or.inr (Or.inl ⟨hk, i, e, rfl, hl, hek, Del_present h hk hf hl⟩)
  | none => exact Or.inr (Or.inr ⟨hk, by omega, rfl, Del_absent hk hf (by omega)⟩)

/-- No call changes the bound or the callback. -/
theorem frame_step {c c1 : LRU T} (h : Inv c) {op : Op T} {r : Ret T}
    (hs : c.step op = some (r, c1)) :
    c1.fixedCapacity_ = c.fixedCapacity_ ∧ c1.evictCallback_ = c.evictCallback_ := by
  cases op with
  | Put key value =>
    simp only [step] at hs
    rcases Put_cases h key value with ⟨_, hp⟩ | ⟨_, i, e, _, _, _, hp⟩ | ⟨_, _, _, hp⟩ |
      ⟨_, _, _, _, hp⟩ | ⟨_, _, _, _, n, _, _, hp⟩ <;>
    · rw [hp] at hs
      cases hs
      exact ⟨rfl, rfl⟩
  | Get key =>
    simp only [step] at hs
    rcases Get_cases h key with ⟨_, hp⟩ | ⟨_, i, e, _, _, _, hp⟩ <;>
    · rw [hp] at hs
      cases hs
      exact ⟨rfl, rfl⟩
  | Del key =>
    simp only [step] at hs
    rcases Del_cases h key with ⟨_, hp⟩ | ⟨_, i, e, _, _, _, hp⟩ | ⟨_, _, _, hp⟩
    · rw [hp] at hs
      cases hs
      exact ⟨rfl, rfl⟩
    · rw [hp] at hs
      cases hs
      exact ⟨rfl, rfl⟩
    · rw [hp] at hs
      cases hs

/-- The member `Put` keeps the invariant. -/
theorem inv_Put {c c1 : LRU T} (h : Inv c) {key : String} {value : T} {b : Bool}
    (hp : c.Put key value = some (b, c1)) : Inv c1 := by
  by_cases hk : key.length = 0
  · rw [Put_empty c value hk] at hp
    cases hp
    exact h
  cases hf : c.lruMap_.find key with
  | some p =>
    obtain ⟨i, e, hpe, hl, hek⟩ := h.index_lookup hf
    subst hpe
    rw [Put_present value hk hf hl] at hp
    cases hp
    exact inv_refreshed h hl hek
  | none =>
    by_cases hlt : c.lruList_.capacity_ < c.fixedCapacity_
    · rw [Put_absent_room value hk hf hlt] at hp
      cases hp
      exact (inv_putNew h value hlt hk hf).1
    · have hle : c.fixedCapacity_ ≤ c.lruList_.capacity_ := by omega
      by_cases hz : c.lruList_.capacity_ = 0
      · rw [Put_absent_zero value hk hf hle hz] at hp
        cases hp
        exact h
      · have hpos : 0 < c.lruList_.capacity_ := by omega
        obtain ⟨n, hn, _, hl⟩ := h.Back_node hpos
        rw [Put_absent_full h value hk hf hle hpos hn] at hp
        cases hp
        obtain ⟨hinv1, hc1⟩ := inv_deleted h hl
        have hfx : (c.deleted n.1 n.2).fixedCapacity_ = c.fixedCapacity_ := rfl
        have hcl := h.count_le
        have hf1 : (c.deleted n.1 n.2).lruMap_.find key = none := by
          rw [StdMap.find_eq_none_iff] at hf ⊢
          intro hin
          apply hf
          have hm : (c.deleted n.1 n.2).lruMap_ = c.lruMap_.erase n.2.key := rfl
          rw [hm, StdMap.erase_eq_filter] at hin
          exact (List.filter_sublist _).map _ |>.subset hin
        exact (inv_putNew hinv1 value (by omega) hk hf1).1

/-- The member `Get` keeps the invariant. -/
theorem inv_Get {c c1 : LRU T} (h : Inv c) {key : String} {r : Option T}
    (hp : c.Get key = some (r, c1)) : Inv c1 := by
  by_cases hk : key.length = 0
  · rw [Get_empty c hk] at hp
    cases hp
    exact h
  cases hf : c.lruMap_.find key with
  | some p =>
    obtain ⟨i, e, hpe, hl, hek⟩ := h.index_lookup hf
    subst hpe
    rw [Get_present hk hf hl] at hp
    cases hp
    exact inv_refreshed h hl hek
  | none =>
    rw [Get_absent c hf] at hp
    cases hp
    exact h

/-- The member `Del` keeps the invariant. -/
theorem inv_Del {c c1 : LRU T} (h : Inv c) {key : String} {b : Bool}
    (hp : c.Del key = some (b, c1)) : Inv c1 := by
  by_cases hk : key.length = 0
  · rw [Del_empty c hk] at hp
    cases hp
    exact h
  by_cases hz : c.lruList_.capacity_ = 0
  · rw [Del_zero key hz] at hp
    cases hp
    exact h
  cases hf : c.lruMap_.find key with
  | some p =>
    obtain ⟨i, e, hpe, hl, hek⟩ := h.index_lookup hf
    subst hpe
    rw [Del_present h hk hf hl] at hp
    cases hp
    exact (inv_deleted h hl).1
  | none =>
    rw [Del_absent hk hf (by omega)] at hp
    cases hp

/-- Every call keeps the invariant. -/
theorem inv_step {c c1 : LRU T} (h : Inv c) {op : Op T} {r : Ret T}
    (hs : c.step op = some (r, c1)) : Inv c1 := by
  cases op with
  | Put key value =>
    simp only [step] at hs
    cases hp : c.Put key value with
    | none => rw [hp] at hs; cases hs
    | some q =>
      rw [hp] at hs
      cases hs
      exact inv_Put h hp
  | Get key =>
    simp only [step] at hs
    cases hp : c.Get key with
    | none => rw [hp] at hs; cases hs
    | some q =>
      rw [hp] at hs
      cases hs
      exact inv_Get h hp
  | Del key =>
    simp only [step] at hs
    cases hp : c.Del key with
    | none => rw [hp] at hs; cases hs
    | some q =>
      rw [hp] at hs
      cases hs
      exact inv_Del h hp

/-- Every run keeps the invariant and the bound. -/
theorem inv_run {ops : List (Op T)} {c c1 : LRU T} (h : Inv c)
    (hr : c.run ops = some c1) : Inv c1 ∧ c1.fixedCapacity_ = c.fixedCapacity_ := by
  induction ops generalizing c with
  | nil =>
    simp only [run, Option.some.injEq] at hr
    subst hr
    exact ⟨h, rfl⟩
  | cons op ops ih =>
    simp only [run] at hr
    cases hs : c.step op with
    | none => rw [hs] at hr; cases hr
    | some q =>
      rw [hs] at hr
      obtain ⟨r, c2⟩ := q
      have h2 := inv_step h hs
      obtain ⟨h3, hfx⟩ := ih h2 hr
      refine ⟨h3, ?_⟩
      rw [hfx]
      exact (frame_step h hs).1

theorem Reachable.inv {c : LRU T} (h : Reachable c) : Inv c := by
  obtain ⟨fixed, callback, ops, hlt, hr⟩ := h
  exact (inv_run (inv_new fixed callback hlt) hr).1

end LRU
namespace LRU

variable {T : Type}

theorem length_eq_zero_iff (s : String) : s.length = 0 ↔ s = "" := by
  constructor
  · intro h
    apply String.ext
    exact List.length_eq_zero.1 h
  · rintro rfl
    rfl

theorem find?_key_of_mem {es : List (Entry T)} (hnd : (es.map Entry.key).Nodup) {e : Entry T}
    (he : e ∈ es) : es.find? (fun x => x.key = e.key) = some e := by
  induction es with
  | nil => simp at he
  | cons a es ih =>
    rw [List.map_cons, List.nodup_cons] at hnd
    rcases List.mem_cons.1 he with h1 | h1
    · subst h1
      simp
    · have hne : a.key ≠ e.key := by
        intro hk
        apply hnd.1
        rw [hk]
        exact List.mem_map_of_mem Entry.key h1
      rw [List.find?_cons_of_neg _ (by simpa using hne)]
      exact ih hnd.2 h1

theorem Inv.entries_nodup {c : LRU T} (h : Inv c) : (c.entries.map Entry.key).Nodup := by
  have := h.keys_nodup
  simpa [entries, List.map_map, Function.comp_def] using this

/-- The value held for a key, in terms of membership. -/
theorem Inv.valueOf_eq_some_iff {c : LRU T} (h : Inv c) (key : String) (v : T) :
    c.valueOf key = some v ↔ ({ key := key, value := v } : Entry T) ∈ c.entries := by
  constructor
  · intro hv
    unfold valueOf at hv
    obtain ⟨e, hfind, hval⟩ := Option.map_eq_some'.1 hv
    have hkey : e.key = key := by simpa using List.find?_some hfind
    have hmem := List.mem_of_find?_eq_some hfind
    have : e = { key := key, value := v } := by
      cases e
      simp only at hkey hval
      rw [hkey, hval]
    rw [← this]
    exact hmem
  · intro hmem
    unfold valueOf
    have := find?_key_of_mem h.entries_nodup hmem
    simp only at this
    rw [this]
    rfl

/-- A key the cache holds a value for is in the index, with an iterator to its live node. -/
theorem Inv.present {c : LRU T} (h : Inv c) {key : String} {v : T}
    (hv : c.valueOf key = some v) :
    ∃ i, c.lruMap_.find key = some (key, Iter.node i) ∧
      StdList.lookup i c.nodes = some { key := key, value := v } ∧ key.length ≠ 0 := by
  have hmem := (h.valueOf_eq_some_iff key v).1 hv
  unfold entries at hmem
  obtain ⟨n, hn, hsnd⟩ := List.mem_map.1 hmem
  obtain ⟨i, e⟩ := n
  simp only at hsnd
  subst hsnd
  exact ⟨i, h.find_of_node hn, StdList.lookup_of_mem h.ids_nodup hn, h.keys_ne _ hn⟩

theorem Inv.entries_refreshed {c : LRU T} (h : Inv c) {key : String} {i : Nat} {e : Entry T}
    (hl : StdList.lookup i c.nodes = some e) :
    (c.refreshed key i e).entries = e :: c.entries.filter (fun x => x.key ≠ e.key) := by
  unfold entries
  rw [nodes_refreshed, h.remove_eq hl, List.map_cons, List.filter_map]
  rfl

theorem Inv.entries_deleted {c : LRU T} (h : Inv c) {i : Nat} {e : Entry T}
    (hl : StdList.lookup i c.nodes = some e) :
    (c.deleted i e).entries = c.entries.filter (fun x => x.key ≠ e.key) := by
  unfold entries
  rw [nodes_deleted, h.remove_eq hl, List.filter_map]
  rfl

theorem entries_putNew (c : LRU T) (key : String) (value : T) :
    (c.putNew key value).2.entries = { key := key, value := value } :: c.entries := rfl

/-- Moving an entry to the front changes no stored value. -/
theorem Inv.valueOf_refreshed {c : LRU T} (h : Inv c) {key : String} {i : Nat} {e : Entry T}
    (hl : StdList.lookup i c.nodes = some e) (hek : e.key = key) (k : String) :
    (c.refreshed key i e).valueOf k = c.valueOf k := by
  have h1 := inv_refreshed h hl hek
  have hmem : e ∈ c.entries := List.mem_map_of_mem Prod.snd (StdList.mem_of_lookup hl)
  apply Option.ext
  intro v
  rw [Option.mem_def, Option.mem_def, h1.valueOf_eq_some_iff, h.valueOf_eq_some_iff,
    h.entries_refreshed hl, List.mem_cons, List.mem_filter]
  constructor
  · rintro (h2 | h2)
    · rw [h2]; exact hmem
    · exact h2.1
  · intro h2
    by_cases hk : k = e.key
    · left
      subst hk
      have := find?_key_of_mem h.entries_nodup h2
      have h3 := find?_key_of_mem h.entries_nodup hmem
      simp only at this
      rw [h3] at this
      exact (Option.some.inj this).symm
    · right
      exact ⟨h2, by simpa using hk⟩

theorem mem_keys_iff {c : LRU T} {k : String} : k ∈ c.keys ↔ ∃ e ∈ c.entries, e.key = k := by
  simp [keys]

end LRU
theorem lastTouch_le {T : Type} (tr : List (Step T)) (key : String) :
    lastTouch tr key ≤ tr.length := Nat.sub_le _ _

theorem lastTouch_snoc {T : Type} (tr : List (Step T)) (s : Step T) (key : String) :
    lastTouch (tr ++ [s]) key = if s.touches key then tr.length + 1 else lastTouch tr key := by
  unfold lastTouch
  rw [List.reverse_append, List.reverse_singleton, List.singleton_append, List.findIdx_cons,
    List.length_append, List.length_singleton]
  cases s.touches key
  · simp
  · simp

theorem retrievable_snoc {T : Type} (tr : List (Step T)) (s : Step T) (key : String) :
    Retrievable (tr ++ [s]) key ↔
      s.inserts key = true ∨
        (Retrievable tr key ∧ s.deletes key = false ∧ s.evicts key = false) := by
  constructor
  · rintro ⟨before, t, after, heq, hins, hafter⟩
    rcases List.eq_nil_or_concat after with hnil | ⟨after1, u, hu⟩
    · subst hnil
      have h : tr = before ∧ [s] = [t] := List.append_inj' heq rfl
      have hst : s = t := by simpa using h.2
      left
      rw [hst]
      exact hins
    · rw [List.concat_eq_append] at hu
      subst hu
      have heq2 : tr ++ [s] = (before ++ t :: after1) ++ [u] := by
        rw [heq]
        simp
      have h := List.append_inj' heq2 rfl
      have hsu : s = u := by simpa using h.2
      right
      have hu := hafter u (by simp)
      refine ⟨⟨before, t, after1, h.1, hins, ?_⟩, by rw [hsu]; exact hu.2.1,
        by rw [hsu]; exact hu.2.2⟩
      intro x hx
      exact hafter x (List.mem_append_left _ hx)
  · rintro (hins | ⟨⟨before, t, after, heq, hins, hafter⟩, hdel, hev⟩)
    · exact ⟨tr, s, [], rfl, hins, by simp⟩
    · by_cases hs : s.inserts key = true
      · exact ⟨tr, s, [], rfl, hs, by simp⟩
      · refine ⟨before, t, after ++ [s], by rw [heq]; simp, hins, ?_⟩
        intro x hx
        rcases List.mem_append.1 hx with h1 | h1
        · exact hafter x h1
        · have hxs : x = s := by simpa using h1
          rw [hxs]
          exact ⟨by simpa using hs, hdel, hev⟩

namespace LRU

variable {T : Type}

/-- A property of traces and caches that every call carries over holds along every run. -/
theorem run_induction {P : List (Step T) → LRU T → Prop}
    (hstep : ∀ (tr : List (Step T)) (c : LRU T) (op : Op T) (r : Ret T) (c2 : LRU T),
      Inv c → P tr c → c.step op = some (r, c2) →
      P (tr ++ [{ pre := c, op := op, ret := r, post := c2 }]) c2)
    (ops : List (Op T)) :
    ∀ (tr : List (Step T)) (c c1 : LRU T), Inv c → P tr c → c.run ops = some c1 →
      P (tr ++ c.trace ops) c1 := by
  induction ops with
  | nil =>
    intro tr c c1 _ hp hr
    simp only [run, Option.some.injEq] at hr
    subst hr
    simpa [trace] using hp
  | cons op ops ih =>
    intro tr c c1 hinv hp hr
    simp only [run] at hr
    cases hs : c.step op with
    | none => rw [hs] at hr; cases hr
    | some q =>
      obtain ⟨r, c2⟩ := q
      rw [hs] at hr
      have h2 := inv_step hinv hs
      have := ih _ c2 c1 h2 (hstep tr c op r c2 hinv hp hs) hr
      simp only [trace, hs]
      simpa using this

/-- After every call of a trace the invariant holds and the bound is the initial one. -/
theorem trace_inv (ops : List (Op T)) :
    ∀ (c : LRU T), Inv c → ∀ s ∈ c.trace ops,
      Inv s.post ∧ s.post.fixedCapacity_ = c.fixedCapacity_ := by
  induction ops with
  | nil =>
    intro c _ s hs
    simp [trace] at hs
  | cons op ops ih =>
    intro c hinv s hs
    cases hstep : c.step op with
    | none => simp [trace, hstep] at hs
    | some q =>
      obtain ⟨r, c2⟩ := q
      have h2 := inv_step hinv hstep
      have hfx := (frame_step hinv hstep).1
      simp only [trace, hstep, List.mem_cons] at hs
      rcases hs with h1 | h1
      · subst h1
        exact ⟨h2, hfx⟩
      · obtain ⟨h3, h4⟩ := ih c2 h2 s h1
        exact ⟨h3, h4.trans hfx⟩

/-- A run with defined behaviour has one trace step for each call. -/
theorem length_trace (ops : List (Op T)) :
    ∀ (c c1 : LRU T), c.run ops = some c1 → (c.trace ops).length = ops.length := by
  induction ops with
  | nil =>
    intro c c1 _
    rfl
  | cons op ops ih =>
    intro c c1 hr
    simp only [run] at hr
    cases hstep : c.step op with
    | none => rw [hstep] at hr; cases hr
    | some q =>
      rw [hstep] at hr
      simp only [trace, hstep, List.length_cons]
      rw [ih q.2 c1 hr]

end LRU
namespace LRU

variable {T : Type}

theorem Inv.keys_refreshed {c : LRU T} (h : Inv c) {key : String} {i : Nat} {e : Entry T}
    (hl : StdList.lookup i c.nodes = some e) :
    (c.refreshed key i e).keys = e.key :: c.keys.filter (fun k => k ≠ e.key) := by
  unfold keys
  rw [h.entries_refreshed hl, List.map_cons, List.filter_map]
  rfl

theorem Inv.keys_deleted {c : LRU T} (h : Inv c) {i : Nat} {e : Entry T}
    (hl : StdList.lookup i c.nodes = some e) :
    (c.deleted i e).keys = c.keys.filter (fun k => k ≠ e.key) := by
  unfold keys
  rw [h.entries_deleted hl, List.filter_map]
  rfl

theorem keys_putNew (c : LRU T) (key : String) (value : T) :
    (c.putNew key value).2.keys = key :: c.keys := rfl

theorem mem_keys_of_lookup {c : LRU T} {i : Nat} {e : Entry T}
    (hl : StdList.lookup i c.nodes = some e) : e.key ∈ c.keys :=
  mem_keys_iff.2 ⟨e, List.mem_map_of_mem Prod.snd (StdList.mem_of_lookup hl), rfl⟩

/-- The entry at the back of the recency list, in terms of the last node. -/
theorem getLast?_keys {c : LRU T} {n : Nat × Entry T} (hn : c.nodes.getLast? = some n) :
    c.entries.getLast? = some n.2 ∧ c.keys.getLast? = some n.2.key := by
  obtain ⟨ys, hys⟩ := List.getLast?_eq_some_iff.1 hn
  constructor
  · rw [List.getLast?_eq_some_iff]
    exact ⟨ys.map Prod.snd, by simp [entries, hys]⟩
  · rw [List.getLast?_eq_some_iff]
    exact ⟨(ys.map Prod.snd).map Entry.key, by simp [keys, entries, hys]⟩

/-- Without the key at the back, a list of distinct keys is the list without its last element. -/
theorem filter_last_eq_dropLast {α β : Type} [DecidableEq β] (f : α → β) {l : List α} {a : α}
    (hnd : (l.map f).Nodup) (hlast : l.getLast? = some a) :
    l.filter (fun x => f x ≠ f a) = l.dropLast := by
  obtain ⟨ys, hys⟩ := List.getLast?_eq_some_iff.1 hlast
  subst hys
  rw [List.map_append, List.nodup_append] at hnd
  obtain ⟨_, _, hdis⟩ := hnd
  rw [List.filter_append, List.dropLast_concat]
  have h1 : ys.filter (fun x => f x ≠ f a) = ys := by
    rw [List.filter_eq_self]
    intro x hx
    have : f x ≠ f a := by
      intro hfa
      exact hdis (List.mem_map_of_mem f hx) (by simp [hfa])
    simpa using this
  rw [h1]
  simp

theorem recent_keep (tr : List (Step T)) (s : Step T) {ks ks2 : List String}
    (hs : (ks.map (lastTouch tr)).Pairwise (fun a b => b < a)) (hsub : ks2.Sublist ks)
    (hnt : ∀ k ∈ ks2, s.touches k = false) :
    (ks2.map (lastTouch (tr ++ [s]))).Pairwise (fun a b => b < a) := by
  have : ks2.map (lastTouch (tr ++ [s])) = ks2.map (lastTouch tr) := by
    apply List.map_congr_left
    intro k hk
    rw [lastTouch_snoc, hnt k hk]
    simp
  rw [this]
  exact hs.sublist (hsub.map _)

theorem recent_front (tr : List (Step T)) (s : Step T) {ks rest : List String} {key : String}
    (hs : (ks.map (lastTouch tr)).Pairwise (fun a b => b < a)) (hsub : rest.Sublist ks)
    (ht : s.touches key = true) (hnt : ∀ k ∈ rest, s.touches k = false) :
    ((key :: rest).map (lastTouch (tr ++ [s]))).Pairwise (fun a b => b < a) := by
  rw [List.map_cons, List.pairwise_cons]
  refine ⟨?_, recent_keep tr s hs hsub hnt⟩
  intro b hb
  obtain ⟨k, hk, hbk⟩ := List.mem_map.1 hb
  rw [← hbk, lastTouch_snoc, lastTouch_snoc, ht, hnt k hk]
  have := lastTouch_le tr k
  simp
  omega

/-- Every call with defined behaviour keeps the recency list ordered by last touch. -/
theorem recency_step (tr : List (Step T)) (c : LRU T) (op : Op T) (r : Ret T) (c2 : LRU T)
    (hinv : Inv c) (hs : RecencyOrdered tr c) (hstep : c.step op = some (r, c2)) :
    RecencyOrdered (tr ++ [{ pre := c, op := op, ret := r, post := c2 }]) c2 := by
  unfold RecencyOrdered at hs ⊢
  have hfl : ∀ k : String, (c.keys.filter (fun x => x ≠ k)).Sublist c.keys :=
    fun k => List.filter_sublist _
  cases op with
  | Put key value =>
    simp only [step] at hstep
    rcases Put_cases hinv key value with ⟨h0, hp⟩ | ⟨_, i, e, hf, hl, hek, hp⟩ |
      ⟨_, hf, hlt, hp⟩ | ⟨_, hf, _, _, hp⟩ | ⟨_, hf, hle, _, n, hn, hl, hp⟩
    · rw [hp] at hstep
      cases hstep
      apply recent_keep tr _ hs (List.Sublist.refl _)
      intro k hk
      obtain ⟨e, he, hek⟩ := mem_keys_iff.1 hk
      obtain ⟨n, hn, hne⟩ := List.mem_map.1 he
      have := hinv.keys_ne n hn
      have hkk : ¬ key = k := by
        intro hkk
        rw [hne, hek, ← hkk] at this
        exact this h0
      simp [Step.touches, Step.inserts, Step.refreshes, hkk]
    · rw [hp] at hstep
      cases hstep
      rw [hinv.keys_refreshed hl, hek]
      apply recent_front tr _ hs (hfl key)
      · have := mem_keys_of_lookup hl
        rw [hek] at this
        simp [Step.touches, Step.inserts, Step.refreshes, this]
      · intro k hk
        have := (List.mem_filter.1 hk).2
        simp at this
        simp [Step.touches, Step.inserts, Step.refreshes, Ne.symm this]
    · rw [hp] at hstep
      cases hstep
      rw [keys_putNew]
      apply recent_front tr _ hs (List.Sublist.refl _)
      · simp [Step.touches, Step.inserts, Step.refreshes, putNew]
      · intro k hk
        have hkk : ¬ key = k := by
          intro hkk
          rw [← hkk] at hk
          exact (hinv.find_none_iff key).1 hf hk
        simp [Step.touches, Step.inserts, Step.refreshes, putNew, hkk]
    · rw [hp] at hstep
      cases hstep
      apply recent_keep tr _ hs (List.Sublist.refl _)
      intro k hk
      have hkk : ¬ key = k := by
        intro hkk
        rw [← hkk] at hk
        exact (hinv.find_none_iff key).1 hf hk
      simp [Step.touches, Step.inserts, Step.refreshes, hkk]
    · rw [hp] at hstep
      cases hstep
      rw [keys_putNew, hinv.keys_deleted hl]
      apply recent_front tr _ hs (hfl _)
      · simp [Step.touches, Step.inserts, Step.refreshes, putNew]
      · intro k hk
        have hk1 := (List.mem_filter.1 hk).1
        have hkk : ¬ key = k := by
          intro hkk
          rw [← hkk] at hk1
          exact (hinv.find_none_iff key).1 hf hk1
        simp [Step.touches, Step.inserts, Step.refreshes, putNew, hkk]
  | Get key =>
    simp only [step] at hstep
    rcases Get_cases hinv key with ⟨_, hp⟩ | ⟨_, i, e, hf, hl, hek, hp⟩
    · rw [hp] at hstep
      cases hstep
      apply recent_keep tr _ hs (List.Sublist.refl _)
      intro k _
      simp [Step.touches, Step.inserts, Step.refreshes]
    · rw [hp] at hstep
      cases hstep
      rw [hinv.keys_refreshed hl, hek]
      apply recent_front tr _ hs (hfl key)
      · simp [Step.touches, Step.inserts, Step.refreshes]
      · intro k hk
        have := (List.mem_filter.1 hk).2
        simp at this
        simp [Step.touches, Step.inserts, Step.refreshes, Ne.symm this]
  | Del key =>
    simp only [step] at hstep
    rcases Del_cases hinv key with ⟨_, hp⟩ | ⟨_, i, e, hf, hl, hek, hp⟩ | ⟨_, _, _, hp⟩
    · rw [hp] at hstep
      cases hstep
      apply recent_keep tr _ hs (List.Sublist.refl _)
      intro k _
      simp [Step.touches, Step.inserts, Step.refreshes]
    · rw [hp] at hstep
      cases hstep
      rw [hinv.keys_deleted hl]
      apply recent_keep tr _ hs (hfl _)
      intro k _
      simp [Step.touches, Step.inserts, Step.refreshes]
    · rw [hp] at hstep
      cases hstep

/-- After every run from a new cache, the recency list is ordered by last touch. -/
theorem recency_run (n : Nat) (callback : Bool) (ops : List (Op T)) (c : LRU T)
    (hn : n < UINT_MOD) (hr : (LRU.new n callback).run ops = some c) :
    RecencyOrdered ((LRU.new n callback).trace ops) c := by
  have := run_induction (P := RecencyOrdered) recency_step ops [] (LRU.new n callback) c
    (inv_new n callback hn) (by simp [RecencyOrdered, keys, entries, nodes, LRU.new, ListT.new,
      StdList.empty]) hr
  simpa using this

end LRU
namespace LRU

variable {T : Type}

theorem Inv.not_mem_keys_of_empty {c : LRU T} (h : Inv c) {key : String}
    (h0 : key.length = 0) : key ∉ c.keys := by
  intro hk
  obtain ⟨e, he, hek⟩ := mem_keys_iff.1 hk
  obtain ⟨n, hn, hne⟩ := List.mem_map.1 he
  have := h.keys_ne n hn
  rw [hne, hek] at this
  exact this h0

/-- The member `Get` finds a key exactly when the recency list holds it. -/
theorem Inv.get_finds_iff {c : LRU T} (h : Inv c) (key : String) :
    (∃ v c1, c.Get key = some (some v, c1)) ↔ key ∈ c.keys := by
  rcases Get_cases h key with ⟨hmiss, hp⟩ | ⟨_, i, e, hf, hl, hek, hp⟩
  · constructor
    · rintro ⟨v, c1, hg⟩
      rw [hp] at hg
      cases hg
    · intro hk
      rcases hmiss with h0 | hf
      · exact absurd hk (h.not_mem_keys_of_empty h0)
      · exact absurd hk ((h.find_none_iff key).1 hf)
  · constructor
    · intro _
      rw [← hek]
      exact mem_keys_of_lookup hl
    · intro _
      exact ⟨_, _, hp⟩

theorem mem_refresh_iff {ks : List String} {key : String} (hmem : key ∈ ks) (k : String) :
    k ∈ key :: ks.filter (fun x => x ≠ key) ↔ k ∈ ks := by
  rw [List.mem_cons, List.mem_filter]
  constructor
  · rintro (h1 | h1)
    · rw [h1]; exact hmem
    · exact h1.1
  · intro h1
    by_cases hkk : k = key
    · left; exact hkk
    · right; exact ⟨h1, by simpa using hkk⟩

/-- Every call with defined behaviour keeps the keys of the recency list in step with the
history of inserting, deleting and evicting calls. -/
theorem held_step (tr : List (Step T)) (c : LRU T) (op : Op T) (r : Ret T) (c2 : LRU T)
    (hinv : Inv c) (hs : ∀ k, k ∈ c.keys ↔ Retrievable tr k)
    (hstep : c.step op = some (r, c2)) :
    ∀ k, k ∈ c2.keys ↔
      Retrievable (tr ++ [{ pre := c, op := op, ret := r, post := c2 }]) k := by
  intro k
  rw [retrievable_snoc, ← hs k]
  cases op with
  | Put key value =>
    simp only [step] at hstep
    rcases Put_cases hinv key value with ⟨h0, hp⟩ | ⟨_, i, e, hf, hl, hek, hp⟩ |
      ⟨_, hf, hlt, hp⟩ | ⟨_, hf, _, _, hp⟩ | ⟨_, hf, hle, _, n, hn, hl, hp⟩
    · rw [hp] at hstep
      cases hstep
      simp [Step.inserts, Step.deletes, Step.evicts]
    · rw [hp] at hstep
      cases hstep
      have hmem := mem_keys_of_lookup hl
      rw [hek] at hmem
      rw [hinv.keys_refreshed hl, hek]
      rw [mem_refresh_iff hmem]
      simp [Step.inserts, Step.deletes, Step.evicts]
    · rw [hp] at hstep
      cases hstep
      have hnle : ¬ c.fixedCapacity_ ≤ c.lruList_.capacity_ := by omega
      rw [keys_putNew]
      simp [Step.inserts, Step.deletes, Step.evicts, putNew, ListT.Capacity, hnle]
      rw [eq_comm]
    · rw [hp] at hstep
      cases hstep
      simp [Step.inserts, Step.deletes, Step.evicts]
    · rw [hp] at hstep
      cases hstep
      have hlast := (getLast?_keys hn).2
      rw [keys_putNew, hinv.keys_deleted hl]
      simp [Step.inserts, Step.deletes, Step.evicts, putNew, ListT.Capacity, hle, hlast]
      rw [eq_comm, eq_comm (a := n.2.key)]
  | Get key =>
    simp only [step] at hstep
    rcases Get_cases hinv key with ⟨_, hp⟩ | ⟨_, i, e, hf, hl, hek, hp⟩
    · rw [hp] at hstep
      cases hstep
      simp [Step.inserts, Step.deletes, Step.evicts]
    · rw [hp] at hstep
      cases hstep
      have hmem := mem_keys_of_lookup hl
      rw [hek] at hmem
      rw [hinv.keys_refreshed hl, hek]
      rw [mem_refresh_iff hmem]
      simp [Step.inserts, Step.deletes, Step.evicts]
  | Del key =>
    simp only [step] at hstep
    rcases Del_cases hinv key with ⟨_, hp⟩ | ⟨_, i, e, hf, hl, hek, hp⟩ | ⟨_, _, _, hp⟩
    · rw [hp] at hstep
      cases hstep
      simp [Step.inserts, Step.deletes, Step.evicts]
    · rw [hp] at hstep
      cases hstep
      rw [hinv.keys_deleted hl, hek]
      simp [Step.inserts, Step.deletes, Step.evicts]
      intro _
      rw [eq_comm]
    · rw [hp] at hstep
      cases hstep

/-- After every run from a new cache, the recency list holds exactly the keys that the history
of the run makes retrievable. -/
theorem held_run (n : Nat) (callback : Bool) (ops : List (Op T)) (c : LRU T)
    (hn : n < UINT_MOD) (hr : (LRU.new n callback).run ops = some c) (k : String) :
    k ∈ c.keys ↔ Retrievable ((LRU.new n callback).trace ops) k := by
  have := run_induction (P := fun tr c => ∀ k, k ∈ c.keys ↔ Retrievable tr k) held_step ops []
    (LRU.new n callback) c (inv_new n callback hn) (by
      intro k
      simp [Retrievable, keys, entries, nodes, LRU.new, ListT.new, StdList.empty]) hr
  simpa using this k

end LRU
/-! ## Properties of the cache -/

namespace LRU

variable {T : Type}

theorem exampleCache_reachable : Reachable exampleCache :=
  ⟨2, true, exampleOps, by decide, rfl⟩

theorem exampleCache1_reachable : Reachable exampleCache1 :=
  ⟨2, true, [.Put "a" 1], by decide, rfl⟩

/-- Scenario 1 of the specification, bound 2: after `Put("a",1)`, `Put("b",2)`, `Put("c",3)` the
cache holds `c` and `b`, and the callback was invoked once, with `("a",1)`. -/
theorem scenario_evict_oldest :
    ((LRU.new 2 true).run [.Put "a" 1, .Put "b" 2, .Put "c" 3]).map
        (fun c => (c.entries, c.evicted)) =
      some ([{ key := "c", value := 3 }, { key := "b", value := 2 }],
        [{ key := "a", value := 1 }]) := rfl

/-- Scenario 2 of the specification, bound 2: after `Put("a",1)`, `Put("b",2)`, `Get("a")`,
`Put("c",3)` the cache holds `c` and `a`: the entry evicted is `("b",2)`. -/
theorem scenario_refresh_then_evict :
    ((LRU.new 2 true).run [.Put "a" 1, .Put "b" 2, .Get "a", .Put "c" 3]).map
        (fun c => (c.entries, c.evicted)) =
      some ([{ key := "c", value := 3 }, { key := "a", value := 1 }],
        [{ key := "b", value := 2 }]) := rfl

/-- Scenario 3 of the specification: after `Put("a",1)`, the call `Put("a",2)` returns `false`
and `Get("a")` still returns 1. -/
theorem scenario_no_overwrite :
    (exampleCache1.Put "a" 2).map Prod.fst = some false ∧
    ((exampleCache1.Put "a" 2).bind (fun r => r.2.Get "a")).map Prod.fst = some (some 1) :=
  ⟨rfl, rfl⟩

theorem new_fixed (n : Nat) (callback : Bool) :
    (LRU.new n callback : LRU T).fixedCapacity_ = n := by
  simp only [LRU.new]
  split <;> omega

/-- C1 (capacity invariant). For every bound `n` (an `unsigned int`) and every sequence of `Put`,
`Get` and `Del` calls on a cache constructed with bound `n`, the element count of the recency list
after each call (the counter `Capacity()`, which is the number of entries the list holds) is at
most `n`. The trace lists the calls up to the first one with undefined behaviour, after which
there is no state to speak of. -/
theorem C1_capacity_invariant (n : Nat) (callback : Bool) (ops : List (Op T))
    (hn : n < UINT_MOD) :
    (LRU.new n callback : LRU T).lruList_.Capacity ≤ n ∧
    ∀ s ∈ (LRU.new n callback : LRU T).trace ops,
      s.post.lruList_.Capacity ≤ n ∧ s.post.entries.length ≤ n ∧
        s.post.lruList_.Capacity = s.post.entries.length := by
  refine ⟨Nat.zero_le n, ?_⟩
  intro s hs
  obtain ⟨hinv, hfx⟩ := trace_inv ops _ (inv_new n callback hn) s hs
  rw [new_fixed] at hfx
  have h1 := hinv.count_le
  have h2 := hinv.count_eq
  have h3 : s.post.entries.length = s.post.nodes.length := by simp [entries]
  unfold ListT.Capacity
  omega

theorem C1_capacity_invariant_witness :
    2 < UINT_MOD ∧ ((LRU.new 2 true).trace (exampleOps ++ [.Put "c" 3])).length = 3 ∧
    (LRU.new 2 true : LRU Nat).lruList_.Capacity ≤ 2 ∧
    ∀ s ∈ (LRU.new 2 true).trace (exampleOps ++ [.Put "c" 3]),
      s.post.lruList_.Capacity ≤ 2 ∧ s.post.entries.length ≤ 2 ∧
        s.post.lruList_.Capacity = s.post.entries.length :=
  ⟨by decide, rfl, C1_capacity_invariant 2 true (exampleOps ++ [.Put "c" 3]) (by decide)⟩

theorem evicted_deleted (c : LRU T) (i : Nat) (e : Entry T) :
    (c.deleted i e).evicted = if c.evictCallback_ then c.evicted ++ [e] else c.evicted := by
  unfold evicted deleted
  cases c.evictCallback_ <;> simp

/-- C2 (LRU eviction). After every run of calls with defined behaviour on a cache constructed
with bound `n >= 1`, when the element count equals `n`, `Put` of a non-empty key the cache does
not hold returns `true`; the entry `back` at the back of the recency list, whose key is the least
recently touched one (every other key of the cache was inserted or refreshed later in the run),
is removed and passed to the callback when one is set; the new entry is at the front; all other
entries stay, with their values and in their order; the element count is still `n`. -/
theorem C2_lru_eviction (n : Nat) (callback : Bool) (ops : List (Op T)) (c : LRU T)
    (key : String) (value : T) (hn : n < UINT_MOD)
    (hr : (LRU.new n callback).run ops = some c) (h1 : 1 ≤ n)
    (hfull : c.lruList_.Capacity = n) (hk : key ≠ "") (habs : key ∉ c.keys) :
    ∃ back c1, c.entries.getLast? = some back ∧
      (∀ k ∈ c.keys, k ≠ back.key →
        lastTouch ((LRU.new n callback).trace ops) back.key <
          lastTouch ((LRU.new n callback).trace ops) k) ∧
      c.Put key value = some (true, c1) ∧
      c1.entries = { key := key, value := value } :: c.entries.dropLast ∧
      back.key ∉ c1.keys ∧
      c1.lruList_.Capacity = n ∧
      c1.evicted = if c.evictCallback_ then c.evicted ++ [back] else c.evicted := by
  obtain ⟨hinv, hfx⟩ := inv_run (inv_new n callback hn) hr
  rw [new_fixed] at hfx
  have hlen : key.length ≠ 0 := fun h => hk ((length_eq_zero_iff key).1 h)
  have hf := (hinv.find_none_iff key).2 habs
  unfold ListT.Capacity at hfull
  have hpos : 0 < c.lruList_.capacity_ := by omega
  have hle : c.fixedCapacity_ ≤ c.lruList_.capacity_ := by omega
  obtain ⟨nd, hnd, _, hl⟩ := hinv.Back_node hpos
  obtain ⟨hlastE, hlastK⟩ := getLast?_keys hnd
  have hdrop : c.entries.filter (fun x => x.key ≠ nd.2.key) = c.entries.dropLast :=
    filter_last_eq_dropLast Entry.key hinv.entries_nodup hlastE
  have hent : ((c.deleted nd.1 nd.2).putNew key value).2.entries =
      { key := key, value := value } :: c.entries.dropLast := by
    rw [entries_putNew, hinv.entries_deleted hl, hdrop]
  refine ⟨nd.2, ((c.deleted nd.1 nd.2).putNew key value).2, hlastE, ?_,
    Put_absent_full hinv value hlen hf hle hpos hnd, hent, ?_, ?_, ?_⟩
  · intro k hkm hkne
    have hro := recency_run n callback ops c hn hr
    unfold RecencyOrdered at hro
    obtain ⟨ys, hys⟩ := List.getLast?_eq_some_iff.1 hlastK
    rw [hys, List.map_append, List.pairwise_append] at hro
    rw [hys] at hkm
    rcases List.mem_append.1 hkm with h2 | h2
    · exact hro.2.2 _ (List.mem_map_of_mem _ h2) _ (by simp)
    · exact absurd (by simpa using h2) hkne
  · rw [keys_putNew, hinv.keys_deleted hl]
    intro hin
    rcases List.mem_cons.1 hin with h2 | h2
    · apply habs
      rw [← h2]
      exact mem_keys_of_lookup hl
    · have := (List.mem_filter.1 h2).2
      simp at this
  · obtain ⟨hinv1, hc1⟩ := inv_deleted hinv hl
    have hfx1 : (c.deleted nd.1 nd.2).fixedCapacity_ = c.fixedCapacity_ := rfl
    have hf1 : (c.deleted nd.1 nd.2).lruMap_.find key = none := by
      rw [hinv1.find_none_iff, hinv.keys_deleted hl]
      intro hin
      exact habs (List.mem_filter.1 hin).1
    have := (inv_putNew hinv1 value (by omega) hlen hf1).2
    unfold ListT.Capacity
    omega
  · exact evicted_deleted c nd.1 nd.2

theorem C2_lru_eviction_witness :
    2 < UINT_MOD ∧ (LRU.new 2 true).run exampleOps = some exampleCache ∧ 1 ≤ 2 ∧
    exampleCache.lruList_.Capacity = 2 ∧ "c" ≠ "" ∧ "c" ∉ exampleCache.keys ∧
    ∃ back c1, exampleCache.entries.getLast? = some back ∧
      (∀ k ∈ exampleCache.keys, k ≠ back.key →
        lastTouch ((LRU.new 2 true).trace exampleOps) back.key <
          lastTouch ((LRU.new 2 true).trace exampleOps) k) ∧
      exampleCache.Put "c" 3 = some (true, c1) ∧
      c1.entries = { key := "c", value := 3 } :: exampleCache.entries.dropLast ∧
      back.key ∉ c1.keys ∧
      c1.lruList_.Capacity = 2 ∧
      c1.evicted =
        if exampleCache.evictCallback_ then exampleCache.evicted ++ [back]
        else exampleCache.evicted :=
  ⟨by decide, rfl, by decide, rfl, by decide, by decide,
    C2_lru_eviction 2 true exampleOps exampleCache "c" 3 (by decide) rfl (by decide) rfl
      (by decide) (by decide)⟩

/-- C3 (Get hit). In every reachable state, for every key the cache holds with value `v`, `Get`
returns (a pointer to) `v`, moves the entry of the key to the front of the recency list and keeps
the other entries in their order; no stored value changes, the element count and the index size
are unchanged, and the callback is not invoked. -/
theorem C3_get_hit (c : LRU T) (key : String) (v : T) (hreach : Reachable c)
    (hv : c.valueOf key = some v) :
    ∃ c1, c.Get key = some (some v, c1) ∧
      c1.entries = { key := key, value := v } :: c.entries.filter (fun e => e.key ≠ key) ∧
      (∀ k, c1.valueOf k = c.valueOf k) ∧
      c1.lruList_.Capacity = c.lruList_.Capacity ∧
      c1.calls = c.calls := by
  have hinv := hreach.inv
  obtain ⟨i, hf, hl, hk⟩ := hinv.present hv
  refine ⟨c.refreshed key i { key := key, value := v }, Get_present hk hf hl, ?_, ?_, rfl, rfl⟩
  · exact hinv.entries_refreshed hl
  · exact hinv.valueOf_refreshed hl rfl

theorem C3_get_hit_witness :
    Reachable exampleCache ∧ exampleCache.valueOf "a" = some 1 ∧
    ∃ c1, exampleCache.Get "a" = some (some 1, c1) ∧
      c1.entries = { key := "a", value := 1 } :: exampleCache.entries.filter (fun e => e.key ≠ "a") ∧
      (∀ k, c1.valueOf k = exampleCache.valueOf k) ∧
      c1.lruList_.Capacity = exampleCache.lruList_.Capacity ∧
      c1.calls = exampleCache.calls :=
  ⟨exampleCache_reachable, rfl, C3_get_hit exampleCache "a" 1 exampleCache_reachable rfl⟩

/-- C4 (no overwrite on refresh). In every reachable state, for every key the cache holds with
value `v` and every value `v'`, `Put` with the key and `v'` returns `false`; afterwards the cache
still holds `v` for the key and a following `Get` returns `v`; the entry is at the front of the
recency list, the other entries keep their order, and the set of keys, the element count and the
callback log are unchanged. -/
theorem C4_put_existing (c : LRU T) (key : String) (v v' : T) (hreach : Reachable c)
    (hv : c.valueOf key = some v) :
    ∃ c1, c.Put key v' = some (false, c1) ∧
      c1.valueOf key = some v ∧
      (∃ c2, c1.Get key = some (some v, c2)) ∧
      c1.entries = { key := key, value := v } :: c.entries.filter (fun e => e.key ≠ key) ∧
      (∀ k, k ∈ c1.keys ↔ k ∈ c.keys) ∧
      c1.lruList_.Capacity = c.lruList_.Capacity ∧
      c1.calls = c.calls := by
  have hinv := hreach.inv
  obtain ⟨i, hf, hl, hk⟩ := hinv.present hv
  have hinv1 := inv_refreshed hinv hl (rfl : ({ key := key, value := v } : Entry T).key = key)
  have hv1 : (c.refreshed key i { key := key, value := v }).valueOf key = some v := by
    rw [hinv.valueOf_refreshed hl rfl]
    exact hv
  refine ⟨c.refreshed key i { key := key, value := v }, Put_present v' hk hf hl, hv1, ?_,
    hinv.entries_refreshed hl, ?_, rfl, rfl⟩
  · obtain ⟨j, hf1, hl1, _⟩ := hinv1.present hv1
    exact ⟨_, Get_present hk hf1 hl1⟩
  · intro k
    have hmem : ({ key := key, value := v } : Entry T) ∈ c.entries :=
      (hinv.valueOf_eq_some_iff key v).1 hv
    rw [mem_keys_iff, mem_keys_iff, hinv.entries_refreshed hl]
    constructor
    · rintro ⟨e, he, hek⟩
      rcases List.mem_cons.1 he with h1 | h1
      · exact ⟨_, hmem, by rw [← hek, h1]⟩
      · exact ⟨e, (List.mem_filter.1 h1).1, hek⟩
    · rintro ⟨e, he, hek⟩
      by_cases hkk : e.key = key
      · exact ⟨_, List.mem_cons_self _ _, by rw [← hek, hkk]⟩
      · exact ⟨e, List.mem_cons_of_mem _ (List.mem_filter.2 ⟨he, by simpa using hkk⟩), hek⟩

theorem C4_put_existing_witness :
    Reachable exampleCache ∧ exampleCache.valueOf "a" = some 1 ∧
    ∃ c1, exampleCache.Put "a" 7 = some (false, c1) ∧
      c1.valueOf "a" = some 1 ∧
      (∃ c2, c1.Get "a" = some (some 1, c2)) ∧
      c1.entries = { key := "a", value := 1 } :: exampleCache.entries.filter (fun e => e.key ≠ "a") ∧
      (∀ k, k ∈ c1.keys ↔ k ∈ exampleCache.keys) ∧
      c1.lruList_.Capacity = exampleCache.lruList_.Capacity ∧
      c1.calls = exampleCache.calls :=
  ⟨exampleCache_reachable, rfl, C4_put_existing exampleCache "a" 1 7 exampleCache_reachable rfl⟩

/-- C5 (Put/Get round trip). In every reachable state, for every non-empty key the cache does not
hold and every value `v`: whenever `Put` returns `true`, the entry of the key with `v` is at the
front of the recency list and a following `Get` returns `v`; and when the element count is below
the bound, `Put` returns `true`, the element count grows by one and the other entries all stay,
in their order. -/
theorem C5_put_get_round_trip (c : LRU T) (key : String) (v : T) (hreach : Reachable c)
    (hk : key ≠ "") (habs : key ∉ c.keys) :
    (∀ c1, c.Put key v = some (true, c1) →
      c1.entries.head? = some { key := key, value := v } ∧
      ∃ c2, c1.Get key = some (some v, c2)) ∧
    (c.lruList_.Capacity < c.fixedCapacity_ →
      ∃ c1, c.Put key v = some (true, c1) ∧
        c1.lruList_.Capacity = c.lruList_.Capacity + 1 ∧
        c1.entries = { key := key, value := v } :: c.entries) := by
  have hinv := hreach.inv
  have hlen : key.length ≠ 0 := fun h => hk ((length_eq_zero_iff key).1 h)
  have hf := (hinv.find_none_iff key).2 habs
  constructor
  · intro c1 hp
    have hinv1 := inv_Put hinv hp
    have hent : ∃ es, c1.entries = { key := key, value := v } :: es := by
      rcases Put_cases hinv key v with ⟨h0, _⟩ | ⟨_, i, e, hf1, _⟩ | ⟨_, _, _, hq⟩ |
        ⟨_, _, _, _, hq⟩ | ⟨_, _, _, _, n, _, _, hq⟩
      · exact absurd h0 hlen
      · rw [hf] at hf1
        cases hf1
      · rw [hq] at hp
        cases hp
        exact ⟨_, entries_putNew c key v⟩
      · rw [hq] at hp
        cases hp
      · rw [hq] at hp
        cases hp
        exact ⟨_, entries_putNew _ key v⟩
    obtain ⟨es, hes⟩ := hent
    refine ⟨by rw [hes]; rfl, ?_⟩
    have hv1 : c1.valueOf key = some v := by
      rw [hinv1.valueOf_eq_some_iff, hes]
      exact List.mem_cons_self _ _
    obtain ⟨j, hf1, hl1, _⟩ := hinv1.present hv1
    exact ⟨_, Get_present hlen hf1 hl1⟩
  · intro hlt
    refine ⟨(c.putNew key v).2, Put_absent_room v hlen hf hlt, ?_, entries_putNew c key v⟩
    exact (inv_putNew hinv v hlt hlen hf).2

theorem C5_put_get_round_trip_witness :
    Reachable exampleCache1 ∧ "b" ≠ "" ∧ "b" ∉ exampleCache1.keys ∧
    (∀ c1, exampleCache1.Put "b" 2 = some (true, c1) →
      c1.entries.head? = some { key := "b", value := 2 } ∧
      ∃ c2, c1.Get "b" = some (some 2, c2)) ∧
    (exampleCache1.lruList_.Capacity < exampleCache1.fixedCapacity_ →
      ∃ c1, exampleCache1.Put "b" 2 = some (true, c1) ∧
        c1.lruList_.Capacity = exampleCache1.lruList_.Capacity + 1 ∧
        c1.entries = { key := "b", value := 2 } :: exampleCache1.entries) :=
  ⟨exampleCache1_reachable, by decide, by decide,
    C5_put_get_round_trip exampleCache1 "b" 2 exampleCache1_reachable (by decide) (by decide)⟩

/-- C6 (index/list agreement). In every reachable state: (i) the keys of the index are pairwise
distinct and their number equals the element count of the recency list; (ii) a key is in the
index exactly when a node of the recency list holds it; (iii) for every key of the index, the
stored iterator refers to a live node, and the key stored in that node is the key. -/
theorem C6_index_list_agreement (c : LRU T) (hreach : Reachable c) :
    ((c.lruMap_.map Prod.fst).Nodup ∧ c.lruMap_.length = c.lruList_.Capacity) ∧
    (∀ k, k ∈ c.lruMap_.map Prod.fst ↔ ∃ n ∈ c.lruList_.lst_.nodes, n.2.key = k) ∧
    (∀ k p, c.lruMap_.find k = some p →
      ∃ e, c.lruList_.lst_.deref p.2 = some e ∧ e.key = k) := by
  have hinv := hreach.inv
  refine ⟨⟨hinv.map_nodup, ?_⟩, ?_, ?_⟩
  · rw [hinv.index.length_eq, List.length_map]
    exact hinv.count_eq.symm
  · intro k
    rw [hinv.map_keys.mem_iff]
    simp [keys, entries, nodes]
  · intro k p hf
    obtain ⟨i, e, hp, hl, hek⟩ := hinv.index_lookup hf
    subst hp
    exact ⟨e, hl, hek⟩

theorem C6_index_list_agreement_witness :
    Reachable exampleCache ∧
    ((exampleCache.lruMap_.map Prod.fst).Nodup ∧
      exampleCache.lruMap_.length = exampleCache.lruList_.Capacity) ∧
    (∀ k, k ∈ exampleCache.lruMap_.map Prod.fst ↔
      ∃ n ∈ exampleCache.lruList_.lst_.nodes, n.2.key = k) ∧
    (∀ k p, exampleCache.lruMap_.find k = some p →
      ∃ e, exampleCache.lruList_.lst_.deref p.2 = some e ∧ e.key = k) :=
  ⟨exampleCache_reachable, C6_index_list_agreement exampleCache exampleCache_reachable⟩

/-- C7 (retrievability). After every run of `Put`, `Get` and `Del` calls with defined behaviour
on a new cache, and for every key, `Get` finds the key exactly when some call of the run was a
`Put` of the key that returned `true` and no later call of the run was a `Put` of the key that
returned `true`, a `Del` of the key that returned `true`, or a `Put` that evicted the key. -/
theorem C7_retrievability (n : Nat) (callback : Bool) (ops : List (Op T)) (c : LRU T)
    (key : String) (hn : n < UINT_MOD) (hr : (LRU.new n callback).run ops = some c) :
    (∃ v c1, c.Get key = some (some v, c1)) ↔
      Retrievable ((LRU.new n callback).trace ops) key := by
  obtain ⟨hinv, _⟩ := inv_run (inv_new n callback hn) hr
  rw [hinv.get_finds_iff key]
  exact held_run n callback ops c hn hr key

theorem C7_retrievability_witness :
    2 < UINT_MOD ∧ (LRU.new 2 true).run exampleOps = some exampleCache ∧
    (∃ v c1, exampleCache.Get "a" = some (some v, c1)) ∧
    ((∃ v c1, exampleCache.Get "a" = some (some v, c1)) ↔
      Retrievable ((LRU.new 2 true).trace exampleOps) "a") :=
  ⟨by decide, rfl, ⟨1, _, rfl⟩,
    C7_retrievability 2 true exampleOps exampleCache "a" (by decide) rfl⟩

/-- C8 (Del hit). In every reachable state, for every key the cache holds with value `v`, `Del`
returns `true`; afterwards the recency list holds the other entries, with their values and in
their order, the index holds the other keys, a following `Get` of the key finds nothing, the
element count is one less, and the callback, when one is set, was invoked once, with the entry
of the key and `v`. -/
theorem C8_del_hit (c : LRU T) (key : String) (v : T) (hreach : Reachable c)
    (hv : c.valueOf key = some v) :
    ∃ c1, c.Del key = some (true, c1) ∧
      c1.entries = c.entries.filter (fun e => e.key ≠ key) ∧
      c1.lruMap_ = c.lruMap_.filter (fun p => p.1 ≠ key) ∧
      c1.Get key = some (none, c1) ∧
      c1.lruList_.Capacity + 1 = c.lruList_.Capacity ∧
      c1.evicted =
        if c.evictCallback_ then c.evicted ++ [{ key := key, value := v }] else c.evicted := by
  have hinv := hreach.inv
  obtain ⟨i, hf, hl, hk⟩ := hinv.present hv
  have hm : (c.deleted i { key := key, value := v }).lruMap_ =
      c.lruMap_.filter (fun p => p.1 ≠ key) := by
    rw [← StdMap.erase_eq_filter]
    rfl
  refine ⟨c.deleted i { key := key, value := v }, Del_present hinv hk hf hl,
    hinv.entries_deleted hl, hm, ?_, (inv_deleted hinv hl).2, evicted_deleted c i _⟩
  apply Get_absent
  rw [hm, StdMap.find_eq_none_iff]
  intro hin
  obtain ⟨p, hp, hpk⟩ := List.mem_map.1 hin
  have := (List.mem_filter.1 hp).2
  simp at this
  exact this hpk

theorem C8_del_hit_witness :
    Reachable exampleCache ∧ exampleCache.valueOf "a" = some 1 ∧
    ∃ c1, exampleCache.Del "a" = some (true, c1) ∧
      c1.entries = exampleCache.entries.filter (fun e => e.key ≠ "a") ∧
      c1.lruMap_ = exampleCache.lruMap_.filter (fun p => p.1 ≠ "a") ∧
      c1.Get "a" = some (none, c1) ∧
      c1.lruList_.Capacity + 1 = exampleCache.lruList_.Capacity ∧
      c1.evicted =
        if exampleCache.evictCallback_ then exampleCache.evicted ++ [{ key := "a", value := 1 }]
        else exampleCache.evicted :=
  ⟨exampleCache_reachable, rfl, C8_del_hit exampleCache "a" 1 exampleCache_reachable rfl⟩

/-- In every reachable state that holds an entry, `Del` of a non-empty key the cache does not
hold dereferences the map iterator `end()`: the call has undefined behaviour. -/
theorem del_miss_undefined (c : LRU T) (key : String) (hreach : Reachable c)
    (hpos : 0 < c.entries.length) (hk : key ≠ "") (habs : key ∉ c.keys) :
    c.Del key = none := by
  have hinv := hreach.inv
  have hlen : key.length ≠ 0 := fun h => hk ((length_eq_zero_iff key).1 h)
  have hf := (hinv.find_none_iff key).2 habs
  apply Del_absent hlen hf
  rw [hinv.count_eq]
  simpa [entries] using hpos

/-- C9 (Del miss). The cache with bound 2 after `Put("a",1)` holds one entry and does not hold the
key `"b"`; `Del("b")` does not return `false`: it dereferences the result `end()` of the failed
lookup (LRU.h:158) before the comparison with `end()` (LRU.h:159), which is undefined. -/
theorem C9_del_miss_dereferences_end :
    (LRU.new 2 true).run [.Put "a" 1] = some exampleCache1 ∧
    exampleCache1.entries.length = 1 ∧ "b" ∉ exampleCache1.keys ∧
    exampleCache1.lruMap_.find "b" = none ∧
    exampleCache1.Del "b" = none ∧ exampleCache1.Del "b" ≠ some (false, exampleCache1) :=
  ⟨rfl, rfl, by decide, rfl, rfl, by decide⟩

/-- C10 (Get miss). In every reachable state, for every key that is empty or that the cache does
not hold, `Get` returns `nullptr` and the cache afterwards is the cache before: entries, values,
order, element count, index and callback log are all unchanged. -/
theorem C10_get_miss (c : LRU T) (key : String) (hreach : Reachable c)
    (hmiss : key = "" ∨ key ∉ c.keys) :
    c.Get key = some (none, c) := by
  rcases hmiss with h | h
  · exact Get_empty c ((length_eq_zero_iff key).2 h)
  · exact Get_absent c ((hreach.inv.find_none_iff key).2 h)

theorem C10_get_miss_witness :
    Reachable exampleCache ∧ ("z" = "" ∨ "z" ∉ exampleCache.keys) ∧
    exampleCache.Get "z" = some (none, exampleCache) :=
  ⟨exampleCache_reachable, Or.inr (by decide),
    C10_get_miss exampleCache "z" exampleCache_reachable (Or.inr (by decide))⟩

end LRU
namespace LRU

variable {T : Type}

theorem new_reachable (n : Nat) (callback : Bool) (hn : n < UINT_MOD) :
    Reachable (LRU.new n callback : LRU T) :=
  ⟨n, callback, [], hn, rfl⟩

/-- C11 (empty key rejected). In every state, reachable or not, and for every value, `Put` with
the empty key returns `false`, `Get` with the empty key returns `nullptr` and `Del` with the empty
key returns `false`, and the cache after each of these calls is the cache before it: no entry is
added or evicted, the recency order and the callback log are unchanged. -/
theorem C11_empty_key_rejected (c : LRU T) (v : T) :
    c.Put "" v = some (false, c) ∧ c.Get "" = some (none, c) ∧ c.Del "" = some (false, c) :=
  ⟨Put_empty c v rfl, Get_empty c rfl, Del_empty c rfl⟩

/-- C12 (Del on an empty cache). In every reachable state that holds no entry, whatever the
bound, `Del` of any key returns `false` and the cache afterwards is the cache before: it is still
empty and the callback log is unchanged. -/
theorem C12_del_on_empty (c : LRU T) (key : String) (hreach : Reachable c)
    (hempty : c.entries.length = 0) :
    c.Del key = some (false, c) := by
  apply Del_zero
  rw [hreach.inv.count_eq]
  simpa [entries] using hempty

theorem C12_del_on_empty_witness :
    Reachable (LRU.new 2 true : LRU Nat) ∧ (LRU.new 2 true : LRU Nat).entries.length = 0 ∧
    (LRU.new 2 true : LRU Nat).Del "x" = some (false, LRU.new 2 true) :=
  ⟨new_reachable 2 true (by decide), rfl,
    C12_del_on_empty (LRU.new 2 true) "x" (new_reachable 2 true (by decide)) rfl⟩

/-- C14 (Put with no evictable tail). In every state, reachable or not, in which the element
count has reached the bound and `Back()` yields `end()`, `Put` of a non-empty key that is not in
the index returns `false` and the cache afterwards is the cache before: nothing is inserted and
the callback log is unchanged. -/
theorem C14_put_no_evictable_tail (c : LRU T) (key : String) (value : T) (hk : key ≠ "")
    (habs : c.lruMap_.find key = none) (hfull : c.fixedCapacity_ ≤ c.lruList_.Capacity)
    (hback : c.lruList_.Back = Iter.pastEnd) :
    c.Put key value = some (false, c) := by
  have hlen : key.length ≠ 0 := fun h => hk ((length_eq_zero_iff key).1 h)
  simp [Put, hlen, habs, hfull, hback, ListT.IsEnd]

theorem C14_put_no_evictable_tail_witness :
    "a" ≠ "" ∧ (LRU.new 0 true : LRU Nat).lruMap_.find "a" = none ∧
    (LRU.new 0 true : LRU Nat).fixedCapacity_ ≤ (LRU.new 0 true : LRU Nat).lruList_.Capacity ∧
    (LRU.new 0 true : LRU Nat).lruList_.Back = Iter.pastEnd ∧
    (LRU.new 0 true : LRU Nat).Put "a" 1 = some (false, LRU.new 0 true) :=
  ⟨by decide, rfl, by decide, rfl,
    C14_put_no_evictable_tail (LRU.new 0 true) "a" 1 (by decide) rfl (by decide) rfl⟩

/-- In every state reached by a cache constructed with bound 0, the conditions of the failure
branch of `Put` hold: the count has reached the bound and `Back()` yields `end()`. -/
theorem capacity_zero_no_back (callback : Bool) (ops : List (Op T)) (c : LRU T)
    (hr : (LRU.new 0 callback).run ops = some c) :
    c.fixedCapacity_ ≤ c.lruList_.Capacity ∧ c.lruList_.Back = Iter.pastEnd := by
  obtain ⟨hinv, hfx⟩ := inv_run (inv_new 0 callback (by decide)) hr
  rw [new_fixed] at hfx
  have hle := hinv.count_le
  have hz : c.lruList_.capacity_ = 0 := by omega
  exact ⟨by rw [hfx]; exact Nat.zero_le _, Back_zero hz⟩

/-- C18 (unique keys). In every reachable state the keys held by the nodes of the recency list
are pairwise distinct and none of them is the empty string. -/
theorem C18_unique_keys (c : LRU T) (hreach : Reachable c) :
    c.keys.Nodup ∧ "" ∉ c.keys := by
  have hinv := hreach.inv
  refine ⟨?_, hinv.not_mem_keys_of_empty rfl⟩
  have := hinv.entries_nodup
  simpa [keys] using this

theorem C18_unique_keys_witness :
    Reachable exampleCache ∧ exampleCache.keys.Nodup ∧ "" ∉ exampleCache.keys :=
  ⟨exampleCache_reachable, C18_unique_keys exampleCache exampleCache_reachable⟩

/-- C19 (Put of a new key succeeds when the bound is positive). After every run of calls with
defined behaviour on a cache constructed with bound `n >= 1`, `Put` of a non-empty key the cache
does not hold returns `true`; the failure branch of `Put` is not taken: when the element count
has reached the bound, `Back()` yields an iterator other than `end()`. -/
theorem C19_put_new_succeeds (n : Nat) (callback : Bool) (ops : List (Op T)) (c : LRU T)
    (key : String) (value : T) (hn : n < UINT_MOD) (h1 : 1 ≤ n)
    (hr : (LRU.new n callback).run ops = some c) (hk : key ≠ "") (habs : key ∉ c.keys) :
    (∃ c1, c.Put key value = some (true, c1)) ∧
    (c.fixedCapacity_ ≤ c.lruList_.Capacity → c.lruList_.IsEnd c.lruList_.Back = true) := by
  obtain ⟨hinv, hfx⟩ := inv_run (inv_new n callback hn) hr
  rw [new_fixed] at hfx
  have hlen : key.length ≠ 0 := fun h => hk ((length_eq_zero_iff key).1 h)
  have hf := (hinv.find_none_iff key).2 habs
  constructor
  · rcases Put_cases hinv key value with ⟨h0, _⟩ | ⟨_, i, e, hf1, _⟩ | ⟨_, _, _, hq⟩ |
      ⟨_, _, hle, hz, _⟩ | ⟨_, _, _, _, nd, _, _, hq⟩
    · exact absurd h0 hlen
    · rw [hf] at hf1
      cases hf1
    · exact ⟨_, hq⟩
    · omega
    · exact ⟨_, hq⟩
  · intro hle
    unfold ListT.Capacity at hle
    obtain ⟨nd, _, hb, _⟩ := hinv.Back_node (by omega)
    rw [hb]
    rfl

theorem C19_put_new_succeeds_witness :
    2 < UINT_MOD ∧ 1 ≤ 2 ∧ (LRU.new 2 true).run exampleOps = some exampleCache ∧
    "c" ≠ "" ∧ "c" ∉ exampleCache.keys ∧
    (∃ c1, exampleCache.Put "c" 3 = some (true, c1)) ∧
    (exampleCache.fixedCapacity_ ≤ exampleCache.lruList_.Capacity →
      exampleCache.lruList_.IsEnd exampleCache.lruList_.Back = true) :=
  ⟨by decide, by decide, rfl, by decide, by decide,
    C19_put_new_succeeds 2 true exampleOps exampleCache "c" 3 (by decide) (by decide) rfl
      (by decide) (by decide)⟩

end LRU
namespace LRU

variable {T : Type}

theorem mem_entries_of_lookup {c : LRU T} {i : Nat} {e : Entry T}
    (hl : StdList.lookup i c.nodes = some e) : e ∈ c.entries :=
  List.mem_map_of_mem Prod.snd (StdList.mem_of_lookup hl)

/-- Two entries of the cache with the same key are the same entry. -/
theorem Inv.entry_unique {c : LRU T} (h : Inv c) {x y : Entry T} (hx : x ∈ c.entries)
    (hy : y ∈ c.entries) (hk : x.key = y.key) : x = y :=
  List.inj_on_of_nodup_map h.entries_nodup hx hy hk

/-- An entry whose key the cache still holds after a call is still an entry of the cache. -/
theorem step_keeps_entries {c c1 : LRU T} (hinv : Inv c) {op : Op T} {r : Ret T}
    (hstep : c.step op = some (r, c1)) :
    ∀ x ∈ c.entries, x.key ∈ c1.keys → x ∈ c1.entries := by
  intro x hx hxk
  have hrefresh : ∀ (key : String) (i : Nat) (e : Entry T),
      StdList.lookup i c.nodes = some e → x ∈ (c.refreshed key i e).entries := by
    intro key i e hl
    rw [hinv.entries_refreshed hl]
    by_cases hxe : x.key = e.key
    · rw [hinv.entry_unique hx (mem_entries_of_lookup hl) hxe]
      exact List.mem_cons_self _ _
    · exact List.mem_cons_of_mem _ (List.mem_filter.2 ⟨hx, by simpa using hxe⟩)
  cases op with
  | Put key value =>
    simp only [step] at hstep
    rcases Put_cases hinv key value with ⟨_, hp⟩ | ⟨_, i, e, _, hl, _, hp⟩ | ⟨_, _, _, hp⟩ |
      ⟨_, _, _, _, hp⟩ | ⟨_, hf, _, _, n, _, hl, hp⟩
    · rw [hp] at hstep
      cases hstep
      exact hx
    · rw [hp] at hstep
      cases hstep
      exact hrefresh key i e hl
    · rw [hp] at hstep
      cases hstep
      rw [entries_putNew]
      exact List.mem_cons_of_mem _ hx
    · rw [hp] at hstep
      cases hstep
      exact hx
    · rw [hp] at hstep
      cases hstep
      rw [keys_putNew, hinv.keys_deleted hl] at hxk
      rw [entries_putNew, hinv.entries_deleted hl]
      apply List.mem_cons_of_mem
      rcases List.mem_cons.1 hxk with h1 | h1
      · exfalso
        apply (hinv.find_none_iff key).1 hf
        rw [← h1]
        exact mem_keys_iff.2 ⟨x, hx, rfl⟩
      · exact List.mem_filter.2 ⟨hx, (List.mem_filter.1 h1).2⟩
  | Get key =>
    simp only [step] at hstep
    rcases Get_cases hinv key with ⟨_, hp⟩ | ⟨_, i, e, _, hl, _, hp⟩
    · rw [hp] at hstep
      cases hstep
      exact hx
    · rw [hp] at hstep
      cases hstep
      exact hrefresh key i e hl
  | Del key =>
    simp only [step] at hstep
    rcases Del_cases hinv key with ⟨_, hp⟩ | ⟨_, i, e, _, hl, _, hp⟩ | ⟨_, _, _, hp⟩
    · rw [hp] at hstep
      cases hstep
      exact hx
    · rw [hp] at hstep
      cases hstep
      rw [hinv.keys_deleted hl] at hxk
      rw [hinv.entries_deleted hl]
      exact List.mem_filter.2 ⟨hx, (List.mem_filter.1 hxk).2⟩
    · rw [hp] at hstep
      cases hstep

/-- The result of `Get` is a pointer to the value `Get` reports. -/
theorem Get_eq_GetPtr (c : LRU T) (key : String) :
    c.Get key =
      match c.GetPtr key with
      | none => none
      | some (none, c1) => some (none, c1)
      | some (some p, c1) =>
        match c1.lruList_.lst_.deref p with
        | none => none
        | some e => some (some e.value, c1) := by
  unfold Get GetPtr
  by_cases hk : key.length = 0
  · simp [hk]
  · simp only [hk, if_false]
    cases hf : c.lruMap_.find key with
    | none => rfl
    | some p =>
      simp only
      cases hm : c.lruList_.MoveToFront p.2 with
      | none => rfl
      | some q => rfl

/-- What `GetPtr` does for a key that is in the index. -/
theorem GetPtr_present {c : LRU T} {key : String} {i : Nat} {e : Entry T}
    (hk : key.length ≠ 0) (hf : c.lruMap_.find key = some (key, Iter.node i))
    (hl : StdList.lookup i c.nodes = some e) :
    c.GetPtr key = some (some (Iter.node c.lruList_.lst_.nextId), c.refreshed key i e) := by
  unfold nodes at hl
  simp [GetPtr, hk, hf, MoveToFront_node hl, refreshed]

/-- A write through the pointer to the front node of a refreshed cache overwrites the value of
that node and nothing else. -/
theorem store_refreshed (c : LRU T) (key : String) (i : Nat) (e : Entry T) (v : T) :
    ∃ c3, (c.refreshed key i e).store (Iter.node c.lruList_.lst_.nextId) v = some c3 ∧
      c3.entries = { key := e.key, value := v } :: (c.refreshed key i e).entries.tail ∧
      c3.calls = (c.refreshed key i e).calls ∧ c3.lruMap_ = (c.refreshed key i e).lruMap_ ∧
      c3.lruList_.Capacity = (c.refreshed key i e).lruList_.Capacity := by
  refine ⟨{ c.refreshed key i e with
      lruList_ :=
        { (c.refreshed key i e).lruList_ with
          lst_ :=
            { nodes :=
                (c.lruList_.lst_.nextId, { key := e.key, value := v }) ::
                  StdList.remove i c.lruList_.lst_.nodes
              nextId := c.lruList_.lst_.nextId + 1 } } }, ?_, ?_, rfl, rfl, rfl⟩
  · simp only [store, StdList.store, StdList.deref, StdList.lookup, refreshed, if_true,
      StdList.setValue]
  · simp [entries, nodes, refreshed]

/-- C20 (stored values and the API). In every reachable state, for every key the cache holds
with value `v`: every single `Put`, `Get` or `Del` call with defined behaviour after which the
cache still holds the key leaves it with the same value `v`; but `Get` of the key returns a
pointer to the stored value, and an assignment of any `v'` through that pointer is defined and
leaves the cache holding `v'` for the key, with the same keys in the same order, the same
values for the other keys, the same index, count and callback log: the value changes without a
removal or an insertion. -/
theorem C20_values_fixed_by_calls_not_by_pointer (c : LRU T) (key : String) (v : T)
    (hreach : Reachable c) (hbefore : c.valueOf key = some v) :
    (∀ op r c1, c.step op = some (r, c1) → key ∈ c1.keys → c1.valueOf key = some v) ∧
    (∀ v', ∃ p c2 c3, c.GetPtr key = some (some p, c2) ∧ c.Get key = some (some v, c2) ∧
      c2.store p v' = some c3 ∧
      c3.valueOf key = some v' ∧ c3.keys = c2.keys ∧
      (∀ k, k ≠ key → c3.valueOf k = c2.valueOf k) ∧
      c3.calls = c2.calls ∧ c3.lruMap_ = c2.lruMap_ ∧
      c3.lruList_.Capacity = c2.lruList_.Capacity) := by
  have hinv := hreach.inv
  constructor
  · intro op r c1 hstep hafter
    have hinv1 := inv_step hinv hstep
    rw [hinv1.valueOf_eq_some_iff]
    exact step_keeps_entries hinv hstep _ ((hinv.valueOf_eq_some_iff key v).1 hbefore) hafter
  · intro v'
    obtain ⟨i, hf, hl, hk⟩ := hinv.present hbefore
    obtain ⟨c3, hst, hent, hcalls, hmap, hcap⟩ :=
      store_refreshed c key i { key := key, value := v } v'
    have hent2 : (c.refreshed key i { key := key, value := v }).entries =
        { key := key, value := v } :: c.entries.filter (fun x => x.key ≠ key) :=
      hinv.entries_refreshed hl
    rw [hent2] at hent
    simp only [List.tail_cons] at hent
    refine ⟨_, _, c3, GetPtr_present hk hf hl, Get_present hk hf hl, hst, ?_, ?_, ?_, hcalls,
      hmap, hcap⟩
    · simp [valueOf, hent]
    · simp [keys, hent, hent2]
    · intro k hkne
      have hne : ¬ key = k := fun h => hkne h.symm
      simp [valueOf, hent, hent2, hne]

theorem C20_values_fixed_by_calls_not_by_pointer_witness :
    Reachable exampleCache ∧ exampleCache.valueOf "a" = some 1 ∧
    (∀ op r c1, exampleCache.step op = some (r, c1) → "a" ∈ c1.keys →
      c1.valueOf "a" = some 1) ∧
    (∀ v', ∃ p c2 c3, exampleCache.GetPtr "a" = some (some p, c2) ∧
      exampleCache.Get "a" = some (some 1, c2) ∧
      c2.store p v' = some c3 ∧
      c3.valueOf "a" = some v' ∧ c3.keys = c2.keys ∧
      (∀ k, k ≠ "a" → c3.valueOf k = c2.valueOf k) ∧
      c3.calls = c2.calls ∧ c3.lruMap_ = c2.lruMap_ ∧
      c3.lruList_.Capacity = c2.lruList_.Capacity) :=
  ⟨exampleCache_reachable, rfl,
    C20_values_fixed_by_calls_not_by_pointer exampleCache "a" 1 exampleCache_reachable rfl⟩

/-- C20 (counterexample). On the cache with bound 2 that holds `("a",1)`, the statement
`*cache.Get("a") = 99` is defined; afterwards the cache holds the same key, nothing was passed to
the callback, and `Get("a")` returns 99: the value of a held key changed with no removal and no
insertion. -/
theorem C20_value_changed_through_get_pointer :
    exampleCache1.valueOf "a" = some 1 ∧
    ((exampleCache1.GetPtr "a").bind (fun r =>
        match r.1 with
        | none => none
        | some p => r.2.store p 99)).map
        (fun c => (c.keys, c.valueOf "a", c.evicted, (c.Get "a").map Prod.fst)) =
      some (["a"], some 99, [], some (some 99)) :=
  ⟨rfl, rfl⟩

end LRU
namespace LRU

variable {T : Type}

theorem filter_key_eq_singleton {es : List (Entry T)} (hnd : (es.map Entry.key).Nodup)
    {e : Entry T} (he : e ∈ es) : es.filter (fun x => decide (x.key = e.key)) = [e] := by
  induction es with
  | nil => simp at he
  | cons a es ih =>
    rw [List.map_cons, List.nodup_cons] at hnd
    rcases List.mem_cons.1 he with h1 | h1
    · subst h1
      rw [List.filter_cons_of_pos (by simp)]
      congr 1
      rw [List.filter_eq_nil_iff]
      intro x hx
      have : x.key ≠ e.key := by
        intro hk
        apply hnd.1
        rw [← hk]
        exact List.mem_map_of_mem Entry.key hx
      simpa using this
    · have hne : a.key ≠ e.key := by
        intro hk
        apply hnd.1
        rw [hk]
        exact List.mem_map_of_mem Entry.key h1
      rw [List.filter_cons_of_neg (by simpa using hne)]
      exact ih hnd.2 h1

theorem removedBy_eq_nil {c c1 : LRU T} (h : ∀ x ∈ c.entries, x.key ∈ c1.keys) :
    c.removedBy c1 = [] := by
  unfold removedBy
  rw [List.filter_eq_nil_iff]
  intro x hx
  simpa using h x hx

theorem removedBy_self (c : LRU T) : c.removedBy c = [] :=
  removedBy_eq_nil (fun x hx => mem_keys_iff.2 ⟨x, hx, rfl⟩)

theorem Inv.removedBy_refreshed {c : LRU T} (h : Inv c) {key : String} {i : Nat} {e : Entry T}
    (hl : StdList.lookup i c.nodes = some e) : c.removedBy (c.refreshed key i e) = [] := by
  apply removedBy_eq_nil
  intro x hx
  rw [h.keys_refreshed hl, mem_refresh_iff (mem_keys_of_lookup hl)]
  exact mem_keys_iff.2 ⟨x, hx, rfl⟩

theorem removedBy_putNew (c : LRU T) (key : String) (value : T) :
    c.removedBy (c.putNew key value).2 = [] := by
  apply removedBy_eq_nil
  intro x hx
  rw [keys_putNew]
  exact List.mem_cons_of_mem _ (mem_keys_iff.2 ⟨x, hx, rfl⟩)

theorem Inv.removedBy_deleted {c : LRU T} (h : Inv c) {i : Nat} {e : Entry T}
    (hl : StdList.lookup i c.nodes = some e) : c.removedBy (c.deleted i e) = [e] := by
  rw [← filter_key_eq_singleton h.entries_nodup (mem_entries_of_lookup hl)]
  unfold removedBy
  apply List.filter_congr
  intro x hx
  rw [h.keys_deleted hl]
  have hxk : x.key ∈ c.keys := mem_keys_iff.2 ⟨x, hx, rfl⟩
  by_cases hk : x.key = e.key
  · simp [hk]
  · simp [hk, hxk]

theorem Inv.removedBy_evict {c : LRU T} (h : Inv c) {i : Nat} {e : Entry T} {key : String}
    (value : T) (hl : StdList.lookup i c.nodes = some e) (habs : key ∉ c.keys) :
    c.removedBy ((c.deleted i e).putNew key value).2 = [e] := by
  rw [← filter_key_eq_singleton h.entries_nodup (mem_entries_of_lookup hl)]
  unfold removedBy
  apply List.filter_congr
  intro x hx
  rw [keys_putNew, h.keys_deleted hl]
  have hxk : x.key ∈ c.keys := mem_keys_iff.2 ⟨x, hx, rfl⟩
  have hne : x.key ≠ key := fun hk => habs (hk ▸ hxk)
  by_cases hk : x.key = e.key
  · simp [hk, hne]
    intro hek
    exact hne (hk.trans hek)
  · simp [hk, hxk, hne]

/-- C13 (callback fidelity). In every reachable state and for every call with defined behaviour,
the callback log grows by exactly the entries the call removed (the entries of the cache before
whose keys the cache after does not hold, with the values they had before), when a callback is
set. A `Put` that returns `true` while the count has reached the bound removes the entry at the
back and nothing else; a `Del` that returns `true` removes the entry of its key and nothing else;
a `Put` of a held key, a `Put` below the bound, a `Put` or `Del` that returns `false` and every
`Get` remove nothing, so the callback is not invoked. -/
theorem C13_callback_fidelity (c c1 : LRU T) (op : Op T) (r : Ret T) (hreach : Reachable c)
    (hstep : c.step op = some (r, c1)) :
    (c1.evicted = if c.evictCallback_ then c.evicted ++ c.removedBy c1 else c.evicted) ∧
    (∀ key value, op = .Put key value →
      (r = .bool true → c.fixedCapacity_ ≤ c.lruList_.Capacity →
        ∃ back, c.entries.getLast? = some back ∧ c.removedBy c1 = [back]) ∧
      (key ∈ c.keys ∨ c.lruList_.Capacity < c.fixedCapacity_ ∨ r = .bool false →
        c.removedBy c1 = [])) ∧
    (∀ key, op = .Get key → c.removedBy c1 = []) ∧
    (∀ key, op = .Del key →
      (r = .bool true → ∃ v, c.valueOf key = some v ∧
        c.removedBy c1 = [{ key := key, value := v }]) ∧
      (r = .bool false → c.removedBy c1 = [])) := by
  have hinv := hreach.inv
  have hsame : c.evicted = if c.evictCallback_ then c.evicted ++ [] else c.evicted := by
    simp
  cases op with
  | Put key value =>
    simp only [step] at hstep
    refine ⟨?_, ?_, fun k hk => (by cases hk), fun k hk => (by cases hk)⟩
    · rcases Put_cases hinv key value with ⟨_, hp⟩ | ⟨_, i, e, _, hl, _, hp⟩ | ⟨_, _, _, hp⟩ |
        ⟨_, _, _, _, hp⟩ | ⟨_, hf, _, _, n, _, hl, hp⟩
      · rw [hp] at hstep
        cases hstep
        rw [removedBy_self]
        exact hsame
      · rw [hp] at hstep
        cases hstep
        rw [hinv.removedBy_refreshed hl]
        exact hsame
      · rw [hp] at hstep
        cases hstep
        rw [removedBy_putNew]
        exact hsame
      · rw [hp] at hstep
        cases hstep
        rw [removedBy_self]
        exact hsame
      · rw [hp] at hstep
        cases hstep
        rw [hinv.removedBy_evict value hl ((hinv.find_none_iff key).1 hf)]
        exact evicted_deleted c n.1 n.2
    · intro k v hop
      cases hop
      rcases Put_cases hinv key value with ⟨_, hp⟩ | ⟨_, i, e, _, hl, _, hp⟩ | ⟨_, _, hlt, hp⟩ |
        ⟨_, _, _, _, hp⟩ | ⟨_, hf, hle, _, n, hn, hl, hp⟩
      · rw [hp] at hstep
        cases hstep
        exact ⟨fun h => (by cases h), fun _ => removedBy_self c⟩
      · rw [hp] at hstep
        cases hstep
        exact ⟨fun h => (by cases h), fun _ => hinv.removedBy_refreshed hl⟩
      · rw [hp] at hstep
        cases hstep
        refine ⟨fun _ hle => ?_, fun _ => removedBy_putNew c key value⟩
        unfold ListT.Capacity at hle
        omega
      · rw [hp] at hstep
        cases hstep
        exact ⟨fun h => (by cases h), fun _ => removedBy_self c⟩
      · rw [hp] at hstep
        cases hstep
        have habs := (hinv.find_none_iff key).1 hf
        refine ⟨fun _ _ => ⟨n.2, (getLast?_keys hn).1, hinv.removedBy_evict value hl habs⟩, ?_⟩
        rintro (h1 | h1 | h1)
        · exact absurd h1 habs
        · unfold ListT.Capacity at h1
          omega
        · cases h1
  | Get key =>
    simp only [step] at hstep
    have hrem : c.removedBy c1 = [] := by
      rcases Get_cases hinv key with ⟨_, hp⟩ | ⟨_, i, e, _, hl, _, hp⟩
      · rw [hp] at hstep
        cases hstep
        exact removedBy_self c
      · rw [hp] at hstep
        cases hstep
        exact hinv.removedBy_refreshed hl
    refine ⟨?_, fun k v hk => (by cases hk), fun _ _ => hrem, fun k hk => (by cases hk)⟩
    rw [hrem]
    rcases Get_cases hinv key with ⟨_, hp⟩ | ⟨_, i, e, _, hl, _, hp⟩
    · rw [hp] at hstep
      cases hstep
      exact hsame
    · rw [hp] at hstep
      cases hstep
      exact hsame
  | Del key =>
    simp only [step] at hstep
    rcases Del_cases hinv key with ⟨_, hp⟩ | ⟨_, i, e, _, hl, hek, hp⟩ | ⟨_, _, _, hp⟩
    · rw [hp] at hstep
      cases hstep
      refine ⟨?_, fun k v hk => (by cases hk), fun k hk => (by cases hk), fun k _ =>
        ⟨fun h => (by cases h), fun _ => removedBy_self c⟩⟩
      rw [removedBy_self]
      exact hsame
    · rw [hp] at hstep
      cases hstep
      refine ⟨?_, fun k v hk => (by cases hk), fun k hk => (by cases hk), fun k hop =>
        ⟨fun _ => ?_, fun h => (by cases h)⟩⟩
      · rw [hinv.removedBy_deleted hl]
        exact evicted_deleted c i e
      · cases hop
        refine ⟨e.value, ?_, ?_⟩
        · rw [hinv.valueOf_eq_some_iff, ← hek]
          exact mem_entries_of_lookup hl
        · rw [hinv.removedBy_deleted hl, ← hek]
    · rw [hp] at hstep
      cases hstep

theorem C13_callback_fidelity_witness :
    Reachable exampleCache ∧
    exampleCache.step (.Put "c" 3) =
      some (.bool true, ((exampleCache.deleted 0 { key := "a", value := 1 }).putNew "c" 3).2) ∧
    exampleCache.removedBy ((exampleCache.deleted 0 { key := "a", value := 1 }).putNew "c" 3).2 =
      [{ key := "a", value := 1 }] ∧
    ((exampleCache.deleted 0 { key := "a", value := 1 }).putNew "c" 3).2.evicted =
      [{ key := "a", value := 1 }] :=
  ⟨exampleCache_reachable, rfl, by decide,
    ((C13_callback_fidelity exampleCache _ (.Put "c" 3) (.bool true) exampleCache_reachable
      rfl).1).trans (by decide)⟩

end LRU
namespace StdList

variable {T : Type}

theorem lookup_eq_none {i : Nat} {ns : List (Nat × Entry T)} (h : ∀ n ∈ ns, n.1 ≠ i) :
    lookup i ns = none := by
  induction ns with
  | nil => rfl
  | cons n ns ih =>
    unfold lookup
    rw [if_neg (h n (List.mem_cons_self _ _))]
    exact ih (fun m hm => h m (List.mem_cons_of_mem _ hm))

/-- The node an iterator refers to splits the list; erasing it leaves the two parts. -/
theorem remove_split {i : Nat} {e : Entry T} {ns : List (Nat × Entry T)}
    (h : lookup i ns = some e) :
    ∃ pre post, ns = pre ++ (i, e) :: post ∧ remove i ns = pre ++ post ∧
      ∀ n ∈ pre, n.1 ≠ i := by
  induction ns with
  | nil => simp [lookup] at h
  | cons n ns ih =>
    unfold lookup at h
    unfold remove
    by_cases hn : n.1 = i
    · rw [if_pos hn] at h
      rw [if_pos hn]
      refine ⟨[], ns, ?_, rfl, by simp⟩
      obtain ⟨a, b⟩ := n
      simp only at hn
      simp only [Option.some.injEq] at h
      rw [hn, h]
      rfl
    · rw [if_neg hn] at h
      rw [if_neg hn]
      obtain ⟨pre, post, h1, h2, h3⟩ := ih h
      refine ⟨n :: pre, post, by rw [h1]; rfl, by rw [h2]; rfl, ?_⟩
      intro m hm
      rcases List.mem_cons.1 hm with h4 | h4
      · rw [h4]; exact hn
      · exact h3 m h4

end StdList

namespace LRU

variable {T : Type}

theorem calls_deleted (c : LRU T) (i : Nat) (e : Entry T) :
    (c.deleted i e).calls =
      c.calls ++
        (if c.evictCallback_ then
          [{ arg := e, lruMap_ := c.lruMap_, lruList_ := (c.deleted i e).lruList_ }]
        else []) := by
  unfold deleted
  cases c.evictCallback_ <;> simp

/-- What the callback observes when `_Delete` invokes it for the node `i` holding `e`: the list
no longer holds the key, the index still does, with an iterator to the erased node. -/
theorem Inv.observed_at_callback {c : LRU T} (h : Inv c) {i : Nat} {e : Entry T}
    (hl : StdList.lookup i c.nodes = some e) :
    e.key ∉ (c.deleted i e).lruList_.lst_.nodes.map (fun n => n.2.key) ∧
    (∃ p, c.lruMap_.find e.key = some p ∧ (c.deleted i e).lruList_.lst_.deref p.2 = none) ∧
    c.lruMap_.length = (c.deleted i e).lruList_.Capacity + 1 := by
  have hnodes : (c.deleted i e).lruList_.lst_.nodes = StdList.remove i c.nodes := rfl
  refine ⟨?_, ⟨(e.key, Iter.node i), h.find_of_node (StdList.mem_of_lookup hl), ?_⟩, ?_⟩
  · rw [hnodes, h.remove_eq hl]
    intro hin
    obtain ⟨n, hn, hk⟩ := List.mem_map.1 hin
    have := (List.mem_filter.1 hn).2
    simp at this
    exact this hk
  · show StdList.lookup i (c.deleted i e).lruList_.lst_.nodes = none
    rw [hnodes, StdList.remove_eq_filter h.ids_nodup]
    apply StdList.lookup_eq_none
    intro n hn
    have := (List.mem_filter.1 hn).2
    simpa using this
  · have hlen := StdList.length_remove hl
    have hc : (c.deleted i e).lruList_.Capacity = c.lruList_.capacity_ - 1 := rfl
    rw [hc, h.index.length_eq, List.length_map, h.count_eq]
    omega

/-- C15 (counterexample). On the cache with bound 2 holding `b` and `a`, `Del("a")` invokes the
callback once, with `("a",1)`; at that moment the recency list holds only `b`, but the index
still holds both `a` and `b`: the key of the removed entry is not yet absent from the index. -/
theorem C15_key_still_indexed_at_callback :
    (exampleCache.Del "a").map (fun r => r.2.calls.map (fun k =>
        (k.arg, k.lruList_.lst_.nodes.map (fun n => n.2.key), k.lruMap_.map Prod.fst))) =
      some [({ key := "a", value := 1 }, ["b"], ["a", "b"])] := rfl

/-- C15 (removal and callback, as the code orders them). In every reachable state and for every
call with defined behaviour, the call invokes the callback at most once, and at the moment of an
invocation the key of the removed entry is already absent from the recency list but still in the
key index, where its iterator refers to no live node; the index has one key more than the
element count. (`_Delete` erases the key from the index after the callback returns.) -/
theorem C15_list_removal_precedes_callback (c c1 : LRU T) (op : Op T) (r : Ret T)
    (hreach : Reachable c) (hstep : c.step op = some (r, c1)) :
    ∃ news, c1.calls = c.calls ++ news ∧ news.length ≤ 1 ∧
      ∀ k ∈ news,
        k.arg.key ∉ k.lruList_.lst_.nodes.map (fun n => n.2.key) ∧
        (∃ p, k.lruMap_.find k.arg.key = some p ∧ k.lruList_.lst_.deref p.2 = none) ∧
        k.lruMap_.length = k.lruList_.Capacity + 1 := by
  have hinv := hreach.inv
  have hnone : ∃ news, c.calls = c.calls ++ news ∧ news.length ≤ 1 ∧
      ∀ k ∈ news,
        k.arg.key ∉ k.lruList_.lst_.nodes.map (fun n => n.2.key) ∧
        (∃ p, k.lruMap_.find k.arg.key = some p ∧ k.lruList_.lst_.deref p.2 = none) ∧
        k.lruMap_.length = k.lruList_.Capacity + 1 :=
    ⟨[], by simp, by simp, by simp⟩
  have hdel : ∀ (i : Nat) (e : Entry T), StdList.lookup i c.nodes = some e →
      ∃ news, (c.deleted i e).calls = c.calls ++ news ∧ news.length ≤ 1 ∧
        ∀ k ∈ news,
          k.arg.key ∉ k.lruList_.lst_.nodes.map (fun n => n.2.key) ∧
          (∃ p, k.lruMap_.find k.arg.key = some p ∧ k.lruList_.lst_.deref p.2 = none) ∧
          k.lruMap_.length = k.lruList_.Capacity + 1 := by
    intro i e hl
    refine ⟨_, calls_deleted c i e, ?_, ?_⟩
    · cases c.evictCallback_ <;> simp
    · intro k hk
      cases hcb : c.evictCallback_ with
      | false => simp [hcb] at hk
      | true =>
        simp only [hcb, if_true, List.mem_singleton] at hk
        subst hk
        exact hinv.observed_at_callback hl
  cases op with
  | Put key value =>
    simp only [step] at hstep
    rcases Put_cases hinv key value with ⟨_, hp⟩ | ⟨_, i, e, _, hl, _, hp⟩ | ⟨_, _, _, hp⟩ |
      ⟨_, _, _, _, hp⟩ | ⟨_, hf, _, _, n, _, hl, hp⟩ <;>
    · rw [hp] at hstep
      cases hstep
      first
        | exact hnone
        | exact hdel _ _ hl
  | Get key =>
    simp only [step] at hstep
    rcases Get_cases hinv key with ⟨_, hp⟩ | ⟨_, i, e, _, hl, _, hp⟩ <;>
    · rw [hp] at hstep
      cases hstep
      exact hnone
  | Del key =>
    simp only [step] at hstep
    rcases Del_cases hinv key with ⟨_, hp⟩ | ⟨_, i, e, _, hl, _, hp⟩ | ⟨_, _, _, hp⟩
    · rw [hp] at hstep
      cases hstep
      exact hnone
    · rw [hp] at hstep
      cases hstep
      exact hdel i e hl
    · rw [hp] at hstep
      cases hstep

theorem C15_list_removal_precedes_callback_witness :
    Reachable exampleCache ∧
    exampleCache.step (.Del "a") =
      some (.bool true, exampleCache.deleted 0 { key := "a", value := 1 }) ∧
    ∃ news, (exampleCache.deleted 0 { key := "a", value := 1 }).calls =
        exampleCache.calls ++ news ∧ news.length ≤ 1 ∧
      ∀ k ∈ news,
        k.arg.key ∉ k.lruList_.lst_.nodes.map (fun n => n.2.key) ∧
        (∃ p, k.lruMap_.find k.arg.key = some p ∧ k.lruList_.lst_.deref p.2 = none) ∧
        k.lruMap_.length = k.lruList_.Capacity + 1 :=
  ⟨exampleCache_reachable, rfl,
    C15_list_removal_precedes_callback exampleCache _ (.Del "a") (.bool true)
      exampleCache_reachable rfl⟩

end LRU

namespace ListT

variable {T : Type}

/-- C16 (MoveToFront). For every list and every iterator that refers to a live node holding the
entry `e`, `MoveToFront` is defined; the node it refers to splits the nodes into those before
and those after it, and the resulting list consists of a new front node holding `e` followed by
those two parts in their order; the returned iterator refers to the new front node, and the
counter and the number of nodes are unchanged. -/
theorem C16_move_to_front (l : ListT T) (it : Iter) (e : Entry T)
    (hlive : l.lst_.deref it = some e) :
    ∃ newIt l1 id newId pre post,
      l.MoveToFront it = some (newIt, l1) ∧ it = Iter.node id ∧ newIt = Iter.node newId ∧
      l.lst_.nodes = pre ++ (id, e) :: post ∧ (∀ n ∈ pre, n.1 ≠ id) ∧
      l1.lst_.nodes = (newId, e) :: (pre ++ post) ∧
      l1.lst_.deref newIt = some e ∧
      l1.Capacity = l.Capacity ∧ l1.lst_.size = l.lst_.size := by
  cases it with
  | pastEnd => simp [StdList.deref] at hlive
  | node i =>
    have hl : StdList.lookup i l.lst_.nodes = some e := hlive
    obtain ⟨pre, post, h1, h2, h3⟩ := StdList.remove_split hl
    refine ⟨_, _, i, l.lst_.nextId, pre, post, LRU.MoveToFront_node hl, rfl, rfl, h1, h3, ?_, ?_,
      rfl, ?_⟩
    · simp only [h2]
    · simp [StdList.deref, StdList.lookup]
    · simp only [StdList.size, List.length_cons]
      exact StdList.length_remove hl

theorem C16_move_to_front_witness :
    exampleCache.lruList_.lst_.deref (Iter.node 0) = some { key := "a", value := 1 } ∧
    ∃ newIt l1 id newId pre post,
      exampleCache.lruList_.MoveToFront (Iter.node 0) = some (newIt, l1) ∧
      Iter.node 0 = Iter.node id ∧ newIt = Iter.node newId ∧
      exampleCache.lruList_.lst_.nodes = pre ++ (id, { key := "a", value := 1 }) :: post ∧
      (∀ n ∈ pre, n.1 ≠ id) ∧
      l1.lst_.nodes = (newId, { key := "a", value := 1 }) :: (pre ++ post) ∧
      l1.lst_.deref newIt = some { key := "a", value := 1 } ∧
      l1.Capacity = exampleCache.lruList_.Capacity ∧
      l1.lst_.size = exampleCache.lruList_.lst_.size :=
  ⟨rfl, C16_move_to_front exampleCache.lruList_ (Iter.node 0) { key := "a", value := 1 } rfl⟩

end ListT
namespace ListT

variable {T : Type}

theorem linv_new : LInv (ListT.new : ListT T) := by
  constructor
  · rfl
  · simp [ListT.new, StdList.empty]
  · simp [ListT.new, StdList.empty]

theorem remove_sublist (i : Nat) (ns : List (Nat × Entry T)) :
    (StdList.remove i ns).Sublist ns := by
  induction ns with
  | nil => exact List.Sublist.refl _
  | cons n ns ih =>
    unfold StdList.remove
    by_cases hn : n.1 = i
    · rw [if_pos hn]
      exact List.sublist_cons_self _ _
    · rw [if_neg hn]
      exact ih.cons₂ n

/-- What `erase` yields when it is defined. -/
theorem erase_eq_some {l l1 : StdList T} {it : Iter} (h : l.erase it = some l1) :
    ∃ i e, it = Iter.node i ∧ StdList.lookup i l.nodes = some e ∧
      l1 = { l with nodes := StdList.remove i l.nodes } := by
  unfold StdList.erase at h
  cases it with
  | pastEnd => simp [StdList.deref] at h
  | node i =>
    cases hl : StdList.lookup i l.nodes with
    | none => simp [StdList.deref, hl] at h
    | some e =>
      simp only [StdList.deref, hl, Option.some.injEq] at h
      exact ⟨i, e, rfl, hl, h.symm⟩

theorem mod_succ (n : Nat) : (n % UINT_MOD + 1) % UINT_MOD = (n + 1) % UINT_MOD := by
  unfold UINT_MOD
  omega

theorem mod_pred (n : Nat) (h : 0 < n % UINT_MOD) :
    (n % UINT_MOD + UINT_MOD - 1) % UINT_MOD = (n - 1) % UINT_MOD := by
  unfold UINT_MOD at h ⊢
  omega

theorem linv_PushFront {l : ListT T} (h : LInv l) (e : Entry T) : LInv (l.PushFront e).2 := by
  constructor
  · show (l.capacity_ + 1) % UINT_MOD = (l.lst_.nodes.length + 1) % UINT_MOD
    rw [h.count_mod, mod_succ]
  · show (((l.lst_.nextId, e) :: l.lst_.nodes).map Prod.fst).Nodup
    rw [List.map_cons, List.nodup_cons]
    refine ⟨?_, h.ids_nodup⟩
    intro hin
    obtain ⟨n, hn, hid⟩ := List.mem_map.1 hin
    have := h.ids_lt n hn
    simp only at hid
    omega
  · intro n hn
    have hn1 : n ∈ (l.lst_.nextId, e) :: l.lst_.nodes := hn
    show n.1 < l.lst_.nextId + 1
    rcases List.mem_cons.1 hn1 with h1 | h1
    · rw [h1]
      exact Nat.lt_succ_self _
    · exact Nat.lt_succ_of_lt (h.ids_lt n h1)

theorem linv_MoveToFront {l l1 : ListT T} (h : LInv l) {it newIt : Iter}
    (hm : l.MoveToFront it = some (newIt, l1)) : LInv l1 := by
  cases it with
  | pastEnd => simp [MoveToFront, StdList.deref] at hm
  | node i =>
    cases hl : StdList.lookup i l.lst_.nodes with
    | none => simp [MoveToFront, StdList.deref, hl] at hm
    | some e =>
      rw [LRU.MoveToFront_node hl] at hm
      cases hm
      have hsub := remove_sublist i l.lst_.nodes
      constructor
      · show l.capacity_ = ((l.lst_.nextId, e) :: StdList.remove i l.lst_.nodes).length % UINT_MOD
        rw [List.length_cons, StdList.length_remove hl]
        exact h.count_mod
      · show (((l.lst_.nextId, e) :: StdList.remove i l.lst_.nodes).map Prod.fst).Nodup
        rw [List.map_cons, List.nodup_cons]
        refine ⟨?_, h.ids_nodup.sublist (hsub.map _)⟩
        intro hin
        obtain ⟨n, hn, hid⟩ := List.mem_map.1 hin
        have := h.ids_lt n (hsub.subset hn)
        simp only at hid
        omega
      · intro n hn
        have hn1 : n ∈ (l.lst_.nextId, e) :: StdList.remove i l.lst_.nodes := hn
        show n.1 < l.lst_.nextId + 1
        rcases List.mem_cons.1 hn1 with h1 | h1
        · rw [h1]
          exact Nat.lt_succ_self _
        · exact Nat.lt_succ_of_lt (h.ids_lt n (hsub.subset h1))

theorem linv_Remove {l l1 : ListT T} (h : LInv l) {it : Iter} {b : Bool}
    (hm : l.Remove it = some (b, l1)) : LInv l1 := by
  unfold Remove at hm
  by_cases hg : l.lst_.size > 0 ∧ l.capacity_ > 0
  · rw [if_pos hg] at hm
    cases he : l.lst_.erase it with
    | none => simp [he] at hm
    | some lst1 =>
      simp only [he, Option.some.injEq, Prod.mk.injEq] at hm
      obtain ⟨i, e, _, hl, hlst⟩ := erase_eq_some he
      obtain ⟨_, rfl⟩ := hm
      subst hlst
      have hsub := remove_sublist i l.lst_.nodes
      have hlen := StdList.length_remove hl
      constructor
      · show (l.capacity_ + UINT_MOD - 1) % UINT_MOD =
          (StdList.remove i l.lst_.nodes).length % UINT_MOD
        have hpos : 0 < l.lst_.nodes.length % UINT_MOD := by
          rw [← h.count_mod]
          exact hg.2
        rw [h.count_mod, mod_pred _ hpos]
        congr 1
        omega
      · exact h.ids_nodup.sublist (hsub.map _)
      · intro n hn
        exact h.ids_lt n (hsub.subset hn)
  · rw [if_neg hg] at hm
    simp only [Option.some.injEq, Prod.mk.injEq] at hm
    rw [← hm.2]
    exact h

theorem linv_call {l l1 : ListT T} (h : LInv l) {op : ListOp T} (hc : l.call op = some l1) :
    LInv l1 := by
  cases op with
  | PushFront e =>
    simp only [call, Option.some.injEq] at hc
    rw [← hc]
    exact linv_PushFront h e
  | MoveToFront it =>
    simp only [call] at hc
    cases hm : l.MoveToFront it with
    | none => rw [hm] at hc; cases hc
    | some q =>
      rw [hm] at hc
      cases hc
      exact linv_MoveToFront h hm
  | Remove it =>
    simp only [call] at hc
    cases hm : l.Remove it with
    | none => rw [hm] at hc; cases hc
    | some q =>
      rw [hm] at hc
      cases hc
      exact linv_Remove h hm

theorem linv_runOps (ops : List (ListOp T)) :
    ∀ (l l1 : ListT T), LInv l → l.runOps ops = some l1 → LInv l1 := by
  induction ops with
  | nil =>
    intro l l1 h hr
    simp only [runOps, Option.some.injEq] at hr
    rw [← hr]
    exact h
  | cons op ops ih =>
    intro l l1 h hr
    simp only [runOps] at hr
    cases hc : l.call op with
    | none => rw [hc] at hr; cases hr
    | some l2 =>
      rw [hc] at hr
      exact ih l2 l1 (linv_call h hc) hr

/-- After `k` calls of `PushFront` the list has `k` more nodes, and the counter has advanced by
`k` modulo `2 ^ 32`. -/
theorem runOps_pushes (e : Entry T) (k : Nat) :
    ∀ (l : ListT T), ∃ l1, l.runOps (List.replicate k (ListOp.PushFront e)) = some l1 ∧
      l1.lst_.nodes.length = l.lst_.nodes.length + k ∧
      l1.capacity_ % UINT_MOD = (l.capacity_ + k) % UINT_MOD := by
  induction k with
  | zero =>
    intro l
    exact ⟨l, rfl, rfl, rfl⟩
  | succ k ih =>
    intro l
    obtain ⟨l1, h1, h2, h3⟩ := ih (l.PushFront e).2
    refine ⟨l1, ?_, ?_, ?_⟩
    · rw [List.replicate_succ]
      simp only [runOps, call]
      exact h1
    · rw [h2]
      show (l.lst_.nodes.length + 1) + k = l.lst_.nodes.length + (k + 1)
      omega
    · rw [h3]
      show ((l.capacity_ + 1) % UINT_MOD + k) % UINT_MOD = (l.capacity_ + (k + 1)) % UINT_MOD
      unfold UINT_MOD
      omega

/-- C17 (counterexample). After `2 ^ 32` calls of `PushFront` on a new list, the list has
`2 ^ 32` live nodes, but the `unsigned int` counter has wrapped: `Capacity()` returns 0. -/
theorem C17_counter_wraps :
    ((ListT.new : ListT Nat).runOps
        (List.replicate (2 ^ 32) (ListOp.PushFront { key := "a", value := 0 }))).map
        (fun l => (l.Capacity, l.lst_.nodes.length)) =
      some (0, 2 ^ 32) := by
  obtain ⟨l1, h1, h2, h3⟩ :=
    runOps_pushes ({ key := "a", value := 0 } : Entry Nat) (2 ^ 32) ListT.new
  have hinv := linv_runOps _ _ l1 linv_new h1
  have hlt : l1.capacity_ < UINT_MOD := by
    rw [hinv.count_mod]
    exact Nat.mod_lt _ (by unfold UINT_MOD; omega)
  have hnew : (ListT.new : ListT Nat).capacity_ = 0 := rfl
  have hnew2 : (ListT.new : ListT Nat).lst_.nodes.length = 0 := rfl
  rw [Nat.mod_eq_of_lt hlt, hnew] at h3
  rw [hnew2] at h2
  have hc : l1.capacity_ = 0 := by
    rw [h3]
    unfold UINT_MOD
    omega
  rw [h1]
  show some (l1.capacity_, l1.lst_.nodes.length) = some (0, 2 ^ 32)
  rw [hc, h2, Nat.zero_add]

/-- C17 (list count agreement, for an `unsigned int` counter). After every sequence of
`PushFront`, `MoveToFront` and `Remove` calls with defined behaviour on a new list, `Capacity()`
is the number of live nodes modulo `2 ^ 32`, hence the number of live nodes while that is below
`2 ^ 32`. Below that bound `PushFront` increases the count by one; `MoveToFront` of a live
iterator leaves the count and the number of nodes unchanged; `Remove` of a live iterator returns
`true`, erases exactly the node the iterator refers to and decreases the count by one; `Remove`
on an empty list returns `false` and changes nothing. -/
theorem C17_count_agreement (ops : List (ListOp T)) (l : ListT T)
    (hrun : (ListT.new : ListT T).runOps ops = some l) :
    l.Capacity = l.lst_.nodes.length % UINT_MOD ∧
    (l.lst_.nodes.length < UINT_MOD → l.Capacity = l.lst_.nodes.length) ∧
    (∀ e, l.lst_.nodes.length + 1 < UINT_MOD →
      (l.PushFront e).2.Capacity = l.Capacity + 1 ∧
      (l.PushFront e).2.lst_.nodes.length = l.lst_.nodes.length + 1) ∧
    (∀ it e, l.lst_.deref it = some e →
      ∃ newIt l1, l.MoveToFront it = some (newIt, l1) ∧ l1.Capacity = l.Capacity ∧
        l1.lst_.nodes.length = l.lst_.nodes.length) ∧
    (∀ it e, l.lst_.deref it = some e → l.lst_.nodes.length < UINT_MOD →
      ∃ l1 id pre post, it = Iter.node id ∧ l.Remove it = some (true, l1) ∧
        l.lst_.nodes = pre ++ (id, e) :: post ∧ l1.lst_.nodes = pre ++ post ∧
        id ∉ (pre ++ post).map Prod.fst ∧ l1.Capacity + 1 = l.Capacity) ∧
    (l.lst_.nodes = [] → ∀ it, l.Remove it = some (false, l)) := by
  have hinv := linv_runOps ops _ l linv_new hrun
  have hcount : l.capacity_ = l.lst_.nodes.length % UINT_MOD := hinv.count_mod
  refine ⟨hcount, ?_, ?_, ?_, ?_, ?_⟩
  · intro hlt
    show l.capacity_ = l.lst_.nodes.length
    rw [hcount, Nat.mod_eq_of_lt hlt]
  · intro e hlt
    refine ⟨?_, rfl⟩
    show (l.capacity_ + 1) % UINT_MOD = l.capacity_ + 1
    rw [hcount, Nat.mod_eq_of_lt (by omega : l.lst_.nodes.length < UINT_MOD)]
    exact Nat.mod_eq_of_lt hlt
  · intro it e hlive
    cases it with
    | pastEnd => simp [StdList.deref] at hlive
    | node i =>
      have hl : StdList.lookup i l.lst_.nodes = some e := hlive
      refine ⟨_, _, LRU.MoveToFront_node hl, rfl, ?_⟩
      show ((l.lst_.nextId, e) :: StdList.remove i l.lst_.nodes).length = l.lst_.nodes.length
      rw [List.length_cons, StdList.length_remove hl]
  · intro it e hlive hlt
    cases it with
    | pastEnd => simp [StdList.deref] at hlive
    | node i =>
      have hl : StdList.lookup i l.lst_.nodes = some e := hlive
      obtain ⟨pre, post, h1, h2, _⟩ := StdList.remove_split hl
      have hlen := StdList.length_remove hl
      have hcap : l.capacity_ = l.lst_.nodes.length := by
        rw [hcount, Nat.mod_eq_of_lt hlt]
      have hpos : 0 < l.capacity_ := by omega
      have hsize : 0 < l.lst_.nodes.length := by omega
      have hpred := LRU.uint_pred hpos (by omega : l.capacity_ < UINT_MOD)
      refine ⟨{ capacity_ := l.capacity_ - 1,
                lst_ := { l.lst_ with nodes := StdList.remove i l.lst_.nodes } },
        i, pre, post, rfl, ?_, h1, h2, ?_, ?_⟩
      · simp [Remove, StdList.size, StdList.erase, StdList.deref, hl, hpos, hsize, hpred]
      · have hnd := hinv.ids_nodup
        rw [h1, List.map_append, List.map_cons, List.nodup_middle, List.nodup_cons] at hnd
        rw [List.map_append]
        exact hnd.1
      · show l.capacity_ - 1 + 1 = l.capacity_
        omega
  · intro hnil it
    simp [Remove, StdList.size, hnil]

theorem C17_count_agreement_witness :
    (ListT.new : ListT Nat).runOps exampleListOps = some exampleList ∧
    exampleList.Capacity = exampleList.lst_.nodes.length % UINT_MOD ∧
    (exampleList.lst_.nodes.length < UINT_MOD →
      exampleList.Capacity = exampleList.lst_.nodes.length) ∧
    (∀ e, exampleList.lst_.nodes.length + 1 < UINT_MOD →
      (exampleList.PushFront e).2.Capacity = exampleList.Capacity + 1 ∧
      (exampleList.PushFront e).2.lst_.nodes.length = exampleList.lst_.nodes.length + 1) ∧
    (∀ it e, exampleList.lst_.deref it = some e →
      ∃ newIt l1, exampleList.MoveToFront it = some (newIt, l1) ∧
        l1.Capacity = exampleList.Capacity ∧
        l1.lst_.nodes.length = exampleList.lst_.nodes.length) ∧
    (∀ it e, exampleList.lst_.deref it = some e → exampleList.lst_.nodes.length < UINT_MOD →
      ∃ l1 id pre post, it = Iter.node id ∧ exampleList.Remove it = some (true, l1) ∧
        exampleList.lst_.nodes = pre ++ (id, e) :: post ∧ l1.lst_.nodes = pre ++ post ∧
        id ∉ (pre ++ post).map Prod.fst ∧ l1.Capacity + 1 = exampleList.Capacity) ∧
    (exampleList.lst_.nodes = [] → ∀ it, exampleList.Remove it = some (false, exampleList)) :=
  ⟨rfl, C17_count_agreement exampleListOps exampleList rfl⟩

end ListT
end lru
